import Mathlib

/-!
Verification of the check framework of the city-bike data-analysis repository
(`checks.py` and the runner in `solution.py`).

The tabular container (a pandas `DataFrame`) is modelled as an ordered
association list of named columns, each column holding a dtype tag and an
ordered list of cell values.  Cell values are modelled as strings, integers,
or the missing-value marker `vNan` (covering both `NaN` and `None`).
`pd.Timestamp`/`pd.to_datetime` string parsing is modelled by an executable
parser for the ISO-like forms `YYYY-MM-DD` and `YYYY-MM-DD HH:MM:SS`
(optionally with a `T` separator), validated against calendar bounds and the
nanosecond-representable year range of pandas timestamps; `strftime` with the
format `%Y-%m-%d %X` (C locale, i.e. `%H:%M:%S`) is modelled by zero-padded
decimal printing.  Integer cells are modelled as unparseable by the timestamp
routines (the epoch-nanosecond interpretation pandas would give them is not
modelled; the datasets feed string cells to these checks).
-/

set_option maxHeartbeats 1000000

/-- A cell value of the tabular container. -/
inductive Value where
  | vStr (s : String)
  | vInt (n : Int)
  | vNan
deriving DecidableEq, Repr

/-- Semantic type tag of a column (pandas dtype). -/
inductive Dtype where
  | int64
  | float64
  | object
  | datetime64
deriving DecidableEq, Repr

/-- A named column's payload: its dtype tag and its ordered cells. -/
structure Column where
  dtype : Dtype
  cells : List Value
deriving DecidableEq, Repr

/-- The tabular container: an ordered list of named columns. -/
structure Table where
  cols : List (String × Column)
deriving DecidableEq, Repr

/-- First column bound to `name`, as `data_source[name]` reads it. -/
def lookupCols (name : String) : List (String × Column) → Option Column
  | [] => none
  | (n, c) :: rest => if n = name then some c else lookupCols name rest

def Table.find? (t : Table) (name : String) : Option Column :=
  lookupCols name t.cols

/-- Replace the first column bound to `name` (append if absent), as the
assignment `data_source[name] = series` writes it. -/
def setCols (name : String) (c : Column) : List (String × Column) → List (String × Column)
  | [] => [(name, c)]
  | (n, c') :: rest => if n = name then (n, c) :: rest else (n, c') :: setCols name c rest

def Table.set (t : Table) (name : String) (c : Column) : Table :=
  ⟨setCols name c t.cols⟩

/-- A calendar timestamp as pandas represents one (to second precision;
sub-second digits play no role in the repository's format string). -/
structure PdTimestamp where
  year : Nat
  month : Nat
  day : Nat
  hour : Nat
  minute : Nat
  second : Nat
deriving DecidableEq, Repr

def isLeap (y : Nat) : Bool :=
  y % 4 = 0 && (y % 100 ≠ 0 || y % 400 = 0)

def daysInMonth (y m : Nat) : Nat :=
  if m = 2 then (if isLeap y then 29 else 28)
  else if m = 4 ∨ m = 6 ∨ m = 9 ∨ m = 11 then 30
  else 31

/-- Calendar validity plus the pandas nanosecond-representable year range
(`pd.Timestamp.min` is in 1677, `pd.Timestamp.max` in 2262). -/
def PdTimestamp.valid (ts : PdTimestamp) : Bool :=
  1677 ≤ ts.year && ts.year ≤ 2262 &&
  1 ≤ ts.month && ts.month ≤ 12 &&
  1 ≤ ts.day && ts.day ≤ daysInMonth ts.year ts.month &&
  ts.hour < 24 && ts.minute < 60 && ts.second < 60

/-- Order-embedding key for comparing timestamps; on field-bounded values the
numeric order of the key is the lexicographic field order pandas uses. -/
def PdTimestamp.toKey (ts : PdTimestamp) : Nat :=
  ((((ts.year * 13 + ts.month) * 32 + ts.day) * 24 + ts.hour) * 60 + ts.minute) * 60 + ts.second

def digitVal (c : Char) : Option Nat :=
  if c.isDigit then some (c.toNat - 48) else none

def parse2 (a b : Char) : Option Nat :=
  match digitVal a, digitVal b with
  | some x, some y => some (10 * x + y)
  | _, _ => none

def parse4 (a b c d : Char) : Option Nat :=
  match digitVal a, digitVal b, digitVal c, digitVal d with
  | some w, some x, some y, some z => some (1000 * w + 100 * x + 10 * y + z)
  | _, _, _, _ => none

/-- Character-level parser for the timestamp string forms accepted in the
model: `YYYY-MM-DD` and `YYYY-MM-DD HH:MM:SS` (`T` also accepted as the
separator, as pandas accepts ISO-8601 input). -/
def parseChars : List Char → Option PdTimestamp
  | [y3, y2, y1, y0, c1, m1, m0, c2, a1, a0] =>
    if c1 = '-' ∧ c2 = '-' then
      match parse4 y3 y2 y1 y0, parse2 m1 m0, parse2 a1 a0 with
      | some y, some m, some d => some ⟨y, m, d, 0, 0, 0⟩
      | _, _, _ => none
    else none
  | [y3, y2, y1, y0, c1, m1, m0, c2, a1, a0, sep, h1, h0, c3, i1, i0, c4, s1, s0] =>
    if (c1 = '-' ∧ c2 = '-' ∧ c3 = ':' ∧ c4 = ':') ∧ (sep = ' ' ∨ sep = 'T') then
      match parse4 y3 y2 y1 y0, parse2 m1 m0, parse2 a1 a0,
            parse2 h1 h0, parse2 i1 i0, parse2 s1 s0 with
      | some y, some m, some d, some h, some mi, some s => some ⟨y, m, d, h, mi, s⟩
      | _, _, _, _, _, _ => none
    else none
  | _ => none

/-- `pd.Timestamp(s)` / `pd.to_datetime(s)` on a string: parse and validate;
`none` models the `ValueError` pandas raises on unparseable input. -/
def pdTimestampOfString (s : String) : Option PdTimestamp :=
  match parseChars s.data with
  | some ts => if ts.valid then some ts else none
  | none => none

def d2c (n : Nat) : List Char :=
  [Nat.digitChar (n / 10 % 10), Nat.digitChar (n % 10)]

def d4c (n : Nat) : List Char :=
  [Nat.digitChar (n / 1000 % 10), Nat.digitChar (n / 100 % 10),
   Nat.digitChar (n / 10 % 10), Nat.digitChar (n % 10)]

/-- `ts.strftime('%Y-%m-%d %X')` in the C locale: `YYYY-MM-DD HH:MM:SS`. -/
def PdTimestamp.strftime (ts : PdTimestamp) : String :=
  String.mk (d4c ts.year ++ ('-' :: d2c ts.month) ++ ('-' :: d2c ts.day) ++
    (' ' :: d2c ts.hour) ++ (':' :: d2c ts.minute) ++ (':' :: d2c ts.second))

/-- The observable failures of the framework.  `keyError` is the lookup
failure pandas raises for an absent column (the ColumnNotFound kind of the
taxonomy); `configValueError` is the `ValueError` the range check raises for
inverted bounds (ConfigurationError); `parseError` is the `ValueError`
pandas raises for an unparseable timestamp (ParseError); `typeError` is the
`TypeError` pandas raises when comparing a non-numeric column against
numeric bounds; `removeValueError` is the `ValueError` of `list.remove` on a
missing element.  The remaining constructors are the `DataException` /
`ValidDataException` payloads of the individual checks. -/
inductive Err where
  | keyError (col : String)
  | configValueError (range_start range_end : Int)
  | parseError (raw : Value)
  | typeError (col : String)
  | removeValueError
  | emptyColumns (cols : List String)
  | gibberishFound (issues : List (String × Value))
  | duplicateValues (cols : List String)
  | incorrectValues (issues : List (String × List Value))
  | futureDateFound (cols : List String)
  | outOfRange (cols : List String)
  | inconsistentTypes (dtypes : List Dtype)
  | irrelevantColumns (cols : List String)
  | nanFound (cols : List String)
deriving DecidableEq, Repr

/-- One cell of `CheckTimeStamps`: `pd.Timestamp(x).strftime('%Y-%m-%d %X')`. -/
def normalizeCell (v : Value) : Option Value :=
  match v with
  | .vStr s => (pdTimestampOfString s).map (fun ts => .vStr ts.strftime)
  | _ => none

/-- `series.apply` of `normalizeCell` over a column: stops at the first cell
pandas cannot parse. -/
def normalizeCells : List Value → Except Err (List Value)
  | [] => .ok []
  | v :: vs =>
    match normalizeCell v with
    | none => .error (.parseError v)
    | some w =>
      match normalizeCells vs with
      | .error e => .error e
      | .ok ws => .ok (w :: ws)

/-- The check variants of `checks.py`.  Each constructor carries the fields
its Python `__init__` stores: the target columns, the variant configuration,
and — for the four variants whose `__init__` creates a `_found_issues`
container that `apply` never resets — that mutable accumulation state. -/
inductive Chk where
  | timeStamps (columns : List String)
  | blank (columns : List String)
  | gibberish (columns : List String) (gibberish_list : List Value)
      (found_issues : List (String × Value))
  | duplicate (columns : List String)
  | dataValidity (columns : List String) (possible_values : List Value)
      (found_issues : List (String × List Value))
  | futureDates (columns : List String) (current_time : PdTimestamp)
      (found_issues : List String)
  | numWithinRange (columns : List String) (range_start range_end : Int)
      (found_issues : List String)
  | dataConsistency (columns : List String)
  | dataRelevancy (columns : List String) (expected_columns : List String)
  | isNaN (columns : List String)
deriving DecidableEq, Repr

/-- Constructor of `CheckGibberrish`: fresh empty `_found_issues`. -/
def CheckGibberrish.mk (columns : List String) (giberrish_list : List Value) : Chk :=
  .gibberish columns giberrish_list []

/-- Constructor of `CheckDataValidity`: fresh empty `_found_issues`. -/
def CheckDataValidity.mk (columns : List String) (possible_values : List Value) : Chk :=
  .dataValidity columns possible_values []

/-- Constructor of `CheckFutureDates`: fresh empty `_found_issues`; the
reference moment `datetime.now()` is modelled as an explicit argument. -/
def CheckFutureDates.mk (columns : List String) (now : PdTimestamp) : Chk :=
  .futureDates columns now []

/-- Constructor of `CheckNumWithinRange`: fresh empty `_found_issues`; the
bounds are stored unchecked (the sanity check happens inside `apply`). -/
def CheckNumWithinRange.mk (columns : List String) (range_start range_end : Int) : Chk :=
  .numWithinRange columns range_start range_end []

instance {α β : Type} [DecidableEq α] [DecidableEq β] : DecidableEq (Except α β) := fun a b =>
  match a, b with
  | .ok x, .ok y => if h : x = y then isTrue (by rw [h]) else isFalse (by simp [h])
  | .error x, .error y => if h : x = y then isTrue (by rw [h]) else isFalse (by simp [h])
  | .ok _, .error _ => isFalse (by simp)
  | .error _, .ok _ => isFalse (by simp)

/-- Outcome of one `apply` call: the table afterwards (only timestamp
normalization writes to it), the check object afterwards (its accumulation
state may have grown), and either a normal return or a raised failure. -/
structure ApplyResult where
  table : Table
  chk : Chk
  out : Except Err Unit
deriving DecidableEq, Repr

/-- The shared `for col in self.columns` loop of the checks whose per-column
work cannot itself raise: look the column up (KeyError on absence aborts the
loop) and fold its payload into the accumulator. -/
def colLoop {σ : Type} (f : String → Column → σ → σ) :
    List String → Table → σ → σ × Except Err Unit
  | [], _, s => (s, .ok ())
  | col :: rest, t, s =>
    match t.find? col with
    | none => (s, .error (.keyError col))
    | some c => colLoop f rest t (f col c s)

/-- Raise the collected payload (if any) after a column loop, propagating a
loop failure unchanged. -/
def raiseFound {σ : Type} (mk : σ → Err) (isEmptyS : σ → Bool)
    (r : σ × Except Err Unit) : Except Err Unit :=
  match r.2 with
  | .error e => .error e
  | .ok _ => if isEmptyS r.1 then .ok () else .error (mk r.1)

/-- `CheckGibberrish._check_gibberish`: on a forbidden cell, record it for
the column, overwriting any previous record (`_found_issues[col] = item`). -/
def updAssoc (col : String) (v : Value) : List (String × Value) → List (String × Value)
  | [] => [(col, v)]
  | (c, w) :: rest => if c = col then (c, v) :: rest else (c, w) :: updAssoc col v rest

def gibCell (G : List Value) (col : String)
    (found : List (String × Value)) (v : Value) : List (String × Value) :=
  if v ∈ G then updAssoc col v found else found

def gibCol (G : List Value) (col : String)
    (found : List (String × Value)) (cells : List Value) : List (String × Value) :=
  cells.foldl (gibCell G col) found

/-- `CheckDataValidity._check_data_inputs`: `_found_issues[col].add(item)` on
a defaultdict of sets, modelled as per-column duplicate-free lists. -/
def addIssueSet (col : String) (v : Value) :
    List (String × List Value) → List (String × List Value)
  | [] => [(col, [v])]
  | (c, vs) :: rest =>
    if c = col then (c, if v ∈ vs then vs else vs ++ [v]) :: rest
    else (c, vs) :: addIssueSet col v rest

def dvCell (P : List Value) (col : String)
    (found : List (String × List Value)) (v : Value) : List (String × List Value) :=
  if v ∈ P then found else addIssueSet col v found

def dvCol (P : List Value) (col : String)
    (found : List (String × List Value)) (cells : List Value) : List (String × List Value) :=
  cells.foldl (dvCell P col) found

/-- Python duplicate test behind `not series.is_unique`. -/
def hasDup : List Value → Bool
  | [] => false
  | v :: vs => v ∈ vs || hasDup vs

/-- `CheckFutureDates._check_time` over one column's cells: parse each cell
(`pd.to_datetime`), record the column in the set on a future date, abort on
an unparseable cell.  `NaN` cells become `NaT`, whose comparison is false. -/
def fdCol (now : PdTimestamp) (col : String) :
    List Value → List String → List String × Except Err Unit
  | [], found => (found, .ok ())
  | v :: vs, found =>
    match v with
    | .vNan => fdCol now col vs found
    | .vInt n => (found, .error (.parseError (.vInt n)))
    | .vStr s =>
      match pdTimestampOfString s with
      | none => (found, .error (.parseError (.vStr s)))
      | some ts =>
        fdCol now col vs
          (if now.toKey < ts.toKey then (if col ∈ found then found else found ++ [col])
           else found)

def fdLoop (now : PdTimestamp) :
    List String → Table → List String → List String × Except Err Unit
  | [], _, found => (found, .ok ())
  | col :: rest, t, found =>
    match t.find? col with
    | none => (found, .error (.keyError col))
    | some cl =>
      let r := fdCol now col cl.cells found
      match r.2 with
      | .error e => (r.1, .error e)
      | .ok _ => fdLoop now rest t r.1

/-- The integer contents of a column as `series.min()`/`series.max()` see
them: `NaN` cells are skipped, and a string cell makes the comparison with
the integer bounds raise a `TypeError` (`none`). -/
def intsSkipNan : List Value → Option (List Int)
  | [] => some []
  | .vInt n :: vs => (intsSkipNan vs).map (n :: ·)
  | .vNan :: vs => intsSkipNan vs
  | .vStr _ :: _ => none

/-- One column of `CheckNumWithinRange.apply`: flagged iff
`series.min() < range_start or series.max() > range_end` (false for a column
with no numeric values, since comparisons against `nan` are false). -/
def rangeFlag (rs re : Int) (xs : List Int) : Bool :=
  xs.any (fun x => decide (x < rs)) || xs.any (fun x => decide (re < x))

def rangeLoop (rs re : Int) :
    List String → Table → List String → List String × Except Err Unit
  | [], _, found => (found, .ok ())
  | col :: rest, t, found =>
    match t.find? col with
    | none => (found, .error (.keyError col))
    | some cl =>
      match intsSkipNan cl.cells with
      | none => (found, .error (.typeError col))
      | some xs =>
        rangeLoop rs re rest t (if rangeFlag rs re xs then found ++ [col] else found)

/-- `CheckTimeStamps.apply`: rewrite each target column in place with the
normalized strings; the column processed when a cell fails to parse is left
unassigned, columns already processed keep their new contents. -/
def tsLoop : List String → Table → Table × Except Err Unit
  | [], t => (t, .ok ())
  | col :: rest, t =>
    match t.find? col with
    | none => (t, .error (.keyError col))
    | some c =>
      match normalizeCells c.cells with
      | .error e => (t, .error e)
      | .ok ws => tsLoop rest (t.set col ⟨.object, ws⟩)

/-- Collector of `CheckDataConsistency`: the set comprehension over the
target columns' dtypes, modelled as a duplicate-free list. -/
def dtypeCollect (cols : List String) (t : Table) (acc : List Dtype) :
    List Dtype × Except Err Unit :=
  colLoop (fun _ c acc => if c.dtype ∈ acc then acc else acc ++ [c.dtype]) cols t acc

def consistencyOut (r : List Dtype × Except Err Unit) : Except Err Unit :=
  match r.2 with
  | .error e => .error e
  | .ok _ => if r.1.length ≤ 1 then .ok () else .error (.inconsistentTypes r.1)

/-- `CheckDataRelevancy.apply`'s scan over every column name of the table. -/
def relevancyScan (expected : List String) (l : List (String × Column)) : List String :=
  l.foldl (fun acc p => if p.1 ∈ expected then acc else acc ++ [p.1]) []

/-- `Check.apply` of every variant, exactly as `checks.py` implements them. -/
def Chk.apply (c : Chk) (t : Table) : ApplyResult :=
  match c with
  | .timeStamps cols =>
    let r := tsLoop cols t
    ⟨r.1, .timeStamps cols, r.2⟩
  | .blank cols =>
    let r := colLoop (fun col c acc => if c.cells.length = 0 then acc ++ [col] else acc)
      cols t []
    ⟨t, .blank cols, raiseFound Err.emptyColumns List.isEmpty r⟩
  | .gibberish cols G found =>
    let r := colLoop (fun col c acc => gibCol G col acc c.cells) cols t found
    ⟨t, .gibberish cols G r.1, raiseFound Err.gibberishFound List.isEmpty r⟩
  | .duplicate cols =>
    let r := colLoop (fun col c acc => if hasDup c.cells then acc ++ [col] else acc)
      cols t []
    ⟨t, .duplicate cols, raiseFound Err.duplicateValues List.isEmpty r⟩
  | .dataValidity cols P found =>
    let r := colLoop (fun col c acc => dvCol P col acc c.cells) cols t found
    ⟨t, .dataValidity cols P r.1, raiseFound Err.incorrectValues List.isEmpty r⟩
  | .futureDates cols now found =>
    let r := fdLoop now cols t found
    ⟨t, .futureDates cols now r.1, raiseFound Err.futureDateFound List.isEmpty r⟩
  | .numWithinRange cols rs re found =>
    if rs > re then ⟨t, .numWithinRange cols rs re found, .error (.configValueError rs re)⟩
    else
      let r := rangeLoop rs re cols t found
      ⟨t, .numWithinRange cols rs re r.1, raiseFound Err.outOfRange List.isEmpty r⟩
  | .dataConsistency cols =>
    if cols.length < 2 then ⟨t, .dataConsistency cols, .ok ()⟩
    else ⟨t, .dataConsistency cols, consistencyOut (dtypeCollect cols t [])⟩
  | .dataRelevancy cols expected =>
    let bad := relevancyScan expected t.cols
    ⟨t, .dataRelevancy cols expected,
      if bad.isEmpty then .ok () else .error (.irrelevantColumns bad)⟩
  | .isNaN cols =>
    let r := colLoop (fun col c acc => if Value.vNan ∈ c.cells then acc ++ [col] else acc)
      cols t []
    ⟨t, .isNaN cols, raiseFound Err.nanFound List.isEmpty r⟩

/-- A check object held by a runner: Python object identity (`oid`) plus the
check's fields.  `Check` defines no `__eq__`, so `==` between check objects
is identity, i.e. `oid` equality. -/
structure PyCheck where
  oid : Nat
  chk : Chk
deriving DecidableEq, Repr

/-- `DataSource.add_check`: append to the ordered check list. -/
def add_check (c : PyCheck) (checks : List PyCheck) : List PyCheck :=
  checks ++ [c]

/-- `DataSource.remove_check`, i.e. Python `list.remove`: drop the first
entry equal to the argument (identity, absent a user `__eq__`), raising
`ValueError` when none matches. -/
def remove_check (c : PyCheck) : List PyCheck → Except Err (List PyCheck)
  | [] => .error .removeValueError
  | x :: xs =>
    if x.oid = c.oid then .ok xs
    else
      match remove_check c xs with
      | .error e => .error e
      | .ok ys => .ok (x :: ys)

/-- `DataSource.check_data`: apply each check to the owned table in
insertion order; a raised failure propagates immediately, leaving the
remaining checks untouched.  Returns the check list, the table, and the
surfaced failure (if any) after the call. -/
def check_data : List PyCheck → Table → List PyCheck × Table × Option Err
  | [], t => ([], t, none)
  | c :: cs, t =>
    let r := c.chk.apply t
    match r.out with
    | .error e => (⟨c.oid, r.chk⟩ :: cs, r.table, some e)
    | .ok _ =>
      let rest := check_data cs r.table
      (⟨c.oid, r.chk⟩ :: rest.1, rest.2.1, rest.2.2)

/-- The target-column list a check was constructed with. -/
def Chk.columns : Chk → List String
  | .timeStamps cols => cols
  | .blank cols => cols
  | .gibberish cols _ _ => cols
  | .duplicate cols => cols
  | .dataValidity cols _ _ => cols
  | .futureDates cols _ _ => cols
  | .numWithinRange cols _ _ _ => cols
  | .dataConsistency cols => cols
  | .dataRelevancy cols _ => cols
  | .isNaN cols => cols

def Chk.isTimeStamps : Chk → Bool
  | .timeStamps _ => true
  | _ => false

/-- Whether the variant-local accumulation state is empty, as it is in a
freshly constructed check (and in one whose every apply so far returned). -/
def Chk.freshState : Chk → Bool
  | .gibberish _ _ found => found.isEmpty
  | .dataValidity _ _ found => found.isEmpty
  | .futureDates _ _ found => found.isEmpty
  | .numWithinRange _ _ _ found => found.isEmpty
  | _ => true

def columnOk (t : Table) (col : String) (p : Column → Bool) : Bool :=
  match t.find? col with
  | some cl => p cl
  | none => false

/-- The spec-side rule of each variant: the condition under which a table
"already satisfies C's rule" (target columns present and unobjectionable;
configuration sound where the rule includes one).  Written from the spec's
description of each rule, independent of the accumulation state. -/
def Chk.satisfies : Chk → Table → Bool
  | .timeStamps cols, t =>
    cols.all (fun col => columnOk t col (fun cl => cl.cells.all (fun v => (normalizeCell v).isSome)))
  | .blank cols, t =>
    cols.all (fun col => columnOk t col (fun cl => !cl.cells.isEmpty))
  | .gibberish cols G _, t =>
    cols.all (fun col => columnOk t col (fun cl => cl.cells.all (fun v => !decide (v ∈ G))))
  | .duplicate cols, t =>
    cols.all (fun col => columnOk t col (fun cl => !hasDup cl.cells))
  | .dataValidity cols P _, t =>
    cols.all (fun col => columnOk t col (fun cl => cl.cells.all (fun v => decide (v ∈ P))))
  | .futureDates cols now _, t =>
    cols.all (fun col => columnOk t col (fun cl => cl.cells.all (fun v =>
      match v with
      | .vNan => true
      | .vInt _ => false
      | .vStr s =>
        match pdTimestampOfString s with
        | some ts => !decide (now.toKey < ts.toKey)
        | none => false)))
  | .numWithinRange cols rs re _, t =>
    decide (rs ≤ re) &&
    cols.all (fun col => columnOk t col (fun cl =>
      match intsSkipNan cl.cells with
      | some xs => xs.all (fun x => decide (rs ≤ x) && decide (x ≤ re))
      | none => false))
  | .dataConsistency cols, t =>
    decide (cols.length < 2) ||
    cols.all (fun c1 => cols.all (fun c2 =>
      match t.find? c1, t.find? c2 with
      | some a, some b => decide (a.dtype = b.dtype)
      | _, _ => false))
  | .dataRelevancy _ expected, t =>
    t.cols.all (fun p => decide (p.1 ∈ expected))
  | .isNaN cols, t =>
    cols.all (fun col => columnOk t col (fun cl => !decide (Value.vNan ∈ cl.cells)))

/-- Whether `apply` reads its target columns at all in this configuration:
the relevancy check never does, and the consistency check returns before
touching the table when fewer than two columns are targeted. -/
def Chk.accessesTargets : Chk → Bool
  | .dataRelevancy _ _ => false
  | .dataConsistency cols => decide (2 ≤ cols.length)
  | _ => true

/-- The variants whose per-column processing cannot itself raise, so that an
absent target column is necessarily reported by the column lookup. -/
def Chk.simpleColumnLoop : Chk → Bool
  | .blank _ => true
  | .gibberish _ _ _ => true
  | .duplicate _ => true
  | .dataValidity _ _ _ => true
  | .isNaN _ => true
  | .dataConsistency cols => decide (2 ≤ cols.length)
  | _ => false

/-- Lookup in the `_found_issues` dict of the gibberish check. -/
def lookupIssue (col : String) : List (String × Value) → Option Value
  | [] => none
  | (c, v) :: rest => if c = col then some v else lookupIssue col rest

/-- Spec-side description of the reported value: the last cell of the column,
in storage order, that equals an entry of the forbidden list. -/
def lastMatch (G : List Value) : List Value → Option Value
  | [] => none
  | v :: vs =>
    match lastMatch G vs with
    | some w => some w
    | none => if v ∈ G then some v else none

/-- A column already in normalized form: object dtype (a column of strings)
whose every cell re-normalizes to itself. -/
def canonicalCol (cl : Column) : Prop :=
  cl.dtype = .object ∧ ∀ v ∈ cl.cells, normalizeCell v = some v

theorem digitVal_digitChar_mod (n : Nat) :
    digitVal (Nat.digitChar (n % 10)) = some (n % 10) := by
  have h : n % 10 < 10 := Nat.mod_lt _ (by norm_num)
  revert h
  have : ∀ d, d < 10 → digitVal (Nat.digitChar d) = some d := by decide
  exact this (n % 10)

theorem parse2_d2c (n : Nat) (h : n < 100) :
    parse2 (Nat.digitChar (n / 10 % 10)) (Nat.digitChar (n % 10)) = some n := by
  rw [parse2, digitVal_digitChar_mod, digitVal_digitChar_mod]
  exact congrArg some (by omega)

theorem parse4_d4c (n : Nat) (h : n < 10000) :
    parse4 (Nat.digitChar (n / 1000 % 10)) (Nat.digitChar (n / 100 % 10))
      (Nat.digitChar (n / 10 % 10)) (Nat.digitChar (n % 10)) = some n := by
  rw [parse4, digitVal_digitChar_mod, digitVal_digitChar_mod,
    digitVal_digitChar_mod, digitVal_digitChar_mod]
  exact congrArg some (by omega)

theorem pdTimestampOfString_strftime (ts : PdTimestamp) (h : ts.valid = true) :
    pdTimestampOfString ts.strftime = some ts := by
  obtain ⟨y, m, d, hh, mi, s⟩ := ts
  have hb : 1677 ≤ y ∧ y ≤ 2262 ∧ 1 ≤ m ∧ m ≤ 12 ∧ 1 ≤ d ∧
      d ≤ daysInMonth y m ∧ hh < 24 ∧ mi < 60 ∧ s < 60 := by
    simp only [PdTimestamp.valid, Bool.and_eq_true, decide_eq_true_eq] at h
    omega
  have hd : d ≤ 31 := by
    have : daysInMonth y m ≤ 31 := by
      unfold daysInMonth
      split
      · split <;> omega
      · split <;> omega
    omega
  rw [pdTimestampOfString, PdTimestamp.strftime]
  simp only [d4c, d2c, List.append_assoc, List.cons_append, List.nil_append]
  simp only [parseChars]
  rw [if_pos (by simp : (True ∧ True ∧ True ∧ True) ∧ (True ∨ ' ' = 'T'))]
  rw [parse4_d4c y (by omega), parse2_d2c m (by omega), parse2_d2c d (by omega),
    parse2_d2c hh (by omega), parse2_d2c mi (by omega), parse2_d2c s (by omega)]
  simp [h]

/-- C5: for the numeric range check, every `apply` call with
`range_start > range_end` raises the configuration `ValueError` immediately,
with the table returned untouched and the accumulation state unchanged; the
result is the same for every table, so the table's contents are never
inspected.  The bounds are stored unchecked at construction
(`CheckNumWithinRange.mk` is total and performs no comparison). -/
theorem numWithinRange_inverted_bounds (cols : List String) (rs re : Int)
    (found : List String) (t : Table) (h : rs > re) :
    Chk.apply (.numWithinRange cols rs re found) t =
      ⟨t, .numWithinRange cols rs re found, .error (.configValueError rs re)⟩ := by
  simp only [Chk.apply]
  rw [if_pos h]

/-- C5 witness: inverted bounds 5 > 3 on a concrete table. -/
theorem numWithinRange_inverted_bounds_witness :
    Chk.apply (.numWithinRange ["a"] 5 3 []) ⟨[("a", ⟨.int64, [.vInt 4]⟩)]⟩ =
      ⟨⟨[("a", ⟨.int64, [.vInt 4]⟩)]⟩, .numWithinRange ["a"] 5 3 [],
        .error (.configValueError 5 3)⟩ :=
  numWithinRange_inverted_bounds ["a"] 5 3 [] ⟨[("a", ⟨.int64, [.vInt 4]⟩)]⟩ (by norm_num)

/-- C10: every check variant other than timestamp normalization returns the
table exactly as it received it — every column name, cell value and row
count unchanged — whether the call returns normally or raises. -/
theorem nonNormalizing_apply_leaves_table (c : Chk) (t : Table)
    (h : c.isTimeStamps = false) : (c.apply t).table = t := by
  cases c with
  | timeStamps cols => simp [Chk.isTimeStamps] at h
  | numWithinRange cols rs re found =>
    simp only [Chk.apply]
    split <;> rfl
  | dataConsistency cols =>
    simp only [Chk.apply]
    split <;> rfl
  | blank cols => rfl
  | gibberish cols G found => rfl
  | duplicate cols => rfl
  | dataValidity cols P found => rfl
  | futureDates cols now found => rfl
  | dataRelevancy cols expected => rfl
  | isNaN cols => rfl

/-- C10 witness: a duplicate check that raises leaves the concrete table
unchanged. -/
theorem nonNormalizing_apply_leaves_table_witness :
    (Chk.apply (.duplicate ["a"]) ⟨[("a", ⟨.int64, [.vInt 1, .vInt 1]⟩)]⟩).table =
      ⟨[("a", ⟨.int64, [.vInt 1, .vInt 1]⟩)]⟩ ∧
    (Chk.apply (.duplicate ["a"]) ⟨[("a", ⟨.int64, [.vInt 1, .vInt 1]⟩)]⟩).out =
      .error (.duplicateValues ["a"]) :=
  ⟨nonNormalizing_apply_leaves_table (.duplicate ["a"])
    ⟨[("a", ⟨.int64, [.vInt 1, .vInt 1]⟩)]⟩ rfl, by decide⟩

/-- C3 counterexample: the check list holds an entry structurally equal to
the argument (same variant, same fields) but a different object; the claim
says `remove` deletes it without raising, yet `list.remove` — which compares
by identity because `Check` defines no `__eq__` — raises `ValueError`. -/
theorem remove_check_structural_counterexample :
    (⟨1, .blank ["a"]⟩ : PyCheck).chk = (⟨0, .blank ["a"]⟩ : PyCheck).chk ∧
    remove_check ⟨1, .blank ["a"]⟩ [⟨0, .blank ["a"]⟩] = .error .removeValueError := by
  exact ⟨rfl, by decide⟩

/-- C3 as amended: `remove_check` removes exactly the first entry that
Python-equality matches — identity, since `Check` defines no `__eq__` —
leaving all other entries in order, and raises `ValueError` (rather than
being a no-op) when no entry matches. -/
theorem remove_check_first_identity_match :
    (∀ (c y : PyCheck) (pre post : List PyCheck),
      (∀ x ∈ pre, x.oid ≠ c.oid) → y.oid = c.oid →
      remove_check c (pre ++ y :: post) = .ok (pre ++ post)) ∧
    (∀ (c : PyCheck) (l : List PyCheck),
      (∀ x ∈ l, x.oid ≠ c.oid) → remove_check c l = .error .removeValueError) := by
  constructor
  · intro c y pre post hpre hy
    induction pre with
    | nil =>
      simp only [List.nil_append, remove_check]
      rw [if_pos hy]
    | cons x xs ih =>
      simp only [List.cons_append, remove_check, List.append_eq]
      rw [if_neg (hpre x (List.mem_cons_self x xs))]
      rw [ih (fun z hz => hpre z (List.mem_cons_of_mem x hz))]
  · intro c l hl
    induction l with
    | nil => rfl
    | cons x xs ih =>
      simp only [remove_check]
      rw [if_neg (hl x (List.mem_cons_self x xs))]
      rw [ih (fun z hz => hl z (List.mem_cons_of_mem x hz))]

/-- C3 witness: removing an identical entry drops exactly the first match
and keeps the order; removing with no identity match raises. -/
theorem remove_check_first_identity_match_witness :
    remove_check ⟨5, .blank []⟩ [⟨1, .blank []⟩, ⟨5, .duplicate ["a"]⟩, ⟨7, .blank []⟩] =
      .ok [⟨1, .blank []⟩, ⟨7, .blank []⟩] ∧
    remove_check ⟨9, .blank []⟩ [⟨1, .blank []⟩] = .error .removeValueError :=
  ⟨remove_check_first_identity_match.1 ⟨5, .blank []⟩ ⟨5, .duplicate ["a"]⟩
      [⟨1, .blank []⟩] [⟨7, .blank []⟩] (by decide) rfl,
   remove_check_first_identity_match.2 ⟨9, .blank []⟩ [⟨1, .blank []⟩] (by decide)⟩

/-- C4 counterexample: the type-consistency check with the single target
column `x`, absent from the table, returns normally — no ColumnNotFound is
raised, because `apply` returns before touching the table when fewer than
two columns are targeted. -/
theorem dataConsistency_absent_target_counterexample :
    Table.find? ⟨[("a", ⟨.int64, [.vInt 1]⟩)]⟩ "x" = none ∧
    (Chk.apply (.dataConsistency ["x"]) ⟨[("a", ⟨.int64, [.vInt 1]⟩)]⟩).out = .ok () := by
  exact ⟨by decide, by decide⟩

/-- C7 counterexample: the presence check constructed with no target columns,
applied to a zero-row table, returns normally instead of raising the claimed
`DataError` listing every (i.e. no) target column. -/
theorem blank_zero_targets_counterexample :
    Table.find? ⟨[("a", ⟨.object, ([] : List Value)⟩)]⟩ "a" = some ⟨.object, []⟩ ∧
    (Chk.apply (.blank []) ⟨[("a", ⟨.object, ([] : List Value)⟩)]⟩).out = .ok () := by
  exact ⟨by decide, by decide⟩

/-- C2 counterexample: a range check whose earlier `apply` on an offending
table recorded column `a` raises again on a table that satisfies its rule,
because `_found_issues` is created in `__init__` and never reset by
`apply`. -/
theorem numWithinRange_stale_state_counterexample :
    Chk.satisfies
        ((Chk.apply (.numWithinRange ["a"] 0 10 []) ⟨[("a", ⟨.int64, [.vInt 20]⟩)]⟩).chk)
        ⟨[("a", ⟨.int64, [.vInt 5]⟩)]⟩ = true ∧
    ((Chk.apply
        ((Chk.apply (.numWithinRange ["a"] 0 10 []) ⟨[("a", ⟨.int64, [.vInt 20]⟩)]⟩).chk)
        ⟨[("a", ⟨.int64, [.vInt 5]⟩)]⟩).out = .error (.outOfRange ["a"])) := by
  exact ⟨by decide, by decide⟩

/-- C1: `check_data` applies each attached check to the owned table in
insertion order; if every check of the prefix `pre` returns and the next
check `c` raises `e`, the run surfaces exactly `e` to the caller and the
checks after `c` are returned untouched — they are never invoked. -/
theorem check_data_short_circuit :
    ∀ (pre : List PyCheck) (c : PyCheck) (post : List PyCheck) (t : Table)
      (pre' : List PyCheck) (t1 : Table) (e : Err),
      check_data pre t = (pre', t1, none) →
      (c.chk.apply t1).out = .error e →
      check_data (pre ++ c :: post) t =
        (pre' ++ ⟨c.oid, (c.chk.apply t1).chk⟩ :: post, (c.chk.apply t1).table, some e) := by
  intro pre
  induction pre with
  | nil =>
    intro c post t pre' t1 e h1 h2
    simp only [check_data, Prod.mk.injEq] at h1
    obtain ⟨h3, h4, -⟩ := h1
    subst h3
    subst h4
    simp only [List.nil_append, check_data]
    rw [h2]
  | cons x xs ih =>
    intro c post t pre' t1 e h1 h2
    simp only [check_data, List.cons_append, List.append_eq] at h1 ⊢
    cases hx : (x.chk.apply t).out with
    | error e2 =>
      rw [hx] at h1
      simp at h1
    | ok u =>
      rw [hx] at h1
      simp only [Prod.mk.injEq] at h1 ⊢
      obtain ⟨hp, ht, hn⟩ := h1
      subst hp
      subst ht
      have hrest : check_data xs (x.chk.apply t).table =
          ((check_data xs (x.chk.apply t).table).1,
            (check_data xs (x.chk.apply t).table).2.1, none) := by
        rw [← hn]
      have hrec := ih c post ((x.chk.apply t).table)
        (check_data xs (x.chk.apply t).table).1
        (check_data xs (x.chk.apply t).table).2.1 e hrest h2
      rw [hrec]
      simp [List.cons_append]

/-- C1 witness: a passing duplicate check, then a presence check on a
missing column that raises KeyError, then another check that is left
untouched; only the first failure is surfaced. -/
theorem check_data_short_circuit_witness :
    check_data
        [⟨0, .duplicate ["a"]⟩, ⟨1, .blank ["b"]⟩, ⟨2, .duplicate ["a"]⟩]
        ⟨[("a", ⟨.int64, [.vInt 1]⟩)]⟩ =
      ([⟨0, .duplicate ["a"]⟩, ⟨1, .blank ["b"]⟩, ⟨2, .duplicate ["a"]⟩],
        ⟨[("a", ⟨.int64, [.vInt 1]⟩)]⟩, some (.keyError "b")) := by
  exact check_data_short_circuit
    [⟨0, .duplicate ["a"]⟩] ⟨1, .blank ["b"]⟩ [⟨2, .duplicate ["a"]⟩]
    ⟨[("a", ⟨.int64, [.vInt 1]⟩)]⟩ [⟨0, .duplicate ["a"]⟩]
    ⟨[("a", ⟨.int64, [.vInt 1]⟩)]⟩ (.keyError "b") (by decide) (by decide)

theorem colLoop_const {σ : Type} (f : String → Column → σ → σ)
    (cols : List String) (t : Table)
    (h : ∀ col ∈ cols, ∃ cl, t.find? col = some cl ∧ ∀ s', f col cl s' = s') :
    ∀ s, colLoop f cols t s = (s, .ok ()) := by
  induction cols with
  | nil => intro s; rfl
  | cons col rest ih =>
    intro s
    obtain ⟨cl, hfind, hid⟩ := h col (List.mem_cons_self col rest)
    simp only [colLoop, hfind, hid]
    exact ih (fun z hz => h z (List.mem_cons_of_mem col hz)) s

theorem blankLoop_all_empty (cols : List String) (t : Table)
    (h : ∀ col ∈ cols, ∃ cl, t.find? col = some cl ∧ cl.cells.length = 0) :
    ∀ acc, colLoop (fun col c acc => if c.cells.length = 0 then acc ++ [col] else acc)
      cols t acc = (acc ++ cols, .ok ()) := by
  induction cols with
  | nil => intro acc; simp [colLoop]
  | cons col rest ih =>
    intro acc
    obtain ⟨cl, hfind, hlen⟩ := h col (List.mem_cons_self col rest)
    simp only [colLoop, hfind, if_pos hlen]
    rw [ih (fun z hz => h z (List.mem_cons_of_mem col hz)) (acc ++ [col])]
    simp

/-- C7 as amended: the presence check with at least one target column, all
present in the table: on a zero-row table it raises the `DataException`
listing every target column, and on a table with rows it returns with the
table and state untouched, regardless of the columns' contents. -/
theorem blank_rowcount_check (cols : List String) (t : Table) (hne : cols ≠ []) :
    ((∀ col ∈ cols, ∃ cl, t.find? col = some cl ∧ cl.cells.length = 0) →
      (Chk.apply (.blank cols) t).out = .error (.emptyColumns cols)) ∧
    ((∀ col ∈ cols, ∃ cl, t.find? col = some cl ∧ 0 < cl.cells.length) →
      Chk.apply (.blank cols) t = ⟨t, .blank cols, .ok ()⟩) := by
  have hempty : cols.isEmpty = false := by
    cases cols with
    | nil => exact absurd rfl hne
    | cons a l => rfl
  constructor
  · intro h
    have hloop := blankLoop_all_empty cols t h []
    simp only [Chk.apply, raiseFound, hloop, List.nil_append, hempty]
    rfl
  · intro h
    have hloop := colLoop_const
      (fun col c acc => if c.cells.length = 0 then acc ++ [col] else acc) cols t
      (by
        intro col hcol
        obtain ⟨cl, hfind, hlen⟩ := h col hcol
        refine ⟨cl, hfind, fun s' => ?_⟩
        show (if cl.cells.length = 0 then s' ++ [col] else s') = s'
        rw [if_neg (by omega)]) []
    simp only [Chk.apply, raiseFound, hloop]
    rfl

/-- C7 witness: a zero-row table with target columns `a`, `b` raises the
empty-columns failure listing both; a one-row table never raises here. -/
theorem blank_rowcount_check_witness :
    (Chk.apply (.blank ["a", "b"])
        ⟨[("a", ⟨.object, []⟩), ("b", ⟨.object, []⟩)]⟩).out =
      .error (.emptyColumns ["a", "b"]) ∧
    Chk.apply (.blank ["a"]) ⟨[("a", ⟨.object, [.vStr "x"]⟩)]⟩ =
      ⟨⟨[("a", ⟨.object, [.vStr "x"]⟩)]⟩, .blank ["a"], .ok ()⟩ := by
  constructor
  · refine (blank_rowcount_check ["a", "b"]
      ⟨[("a", ⟨.object, []⟩), ("b", ⟨.object, []⟩)]⟩ (by decide)).1 ?_
    intro col hcol
    simp only [List.mem_cons, List.not_mem_nil, or_false] at hcol
    rcases hcol with rfl | rfl
    · exact ⟨⟨.object, []⟩, by decide, rfl⟩
    · exact ⟨⟨.object, []⟩, by decide, rfl⟩
  · refine (blank_rowcount_check ["a"]
      ⟨[("a", ⟨.object, [.vStr "x"]⟩)]⟩ (by decide)).2 ?_
    intro col hcol
    simp only [List.mem_cons, List.not_mem_nil, or_false] at hcol
    subst hcol
    exact ⟨⟨.object, [.vStr "x"]⟩, by decide, by decide⟩

theorem eq_of_mem_length_le_one {α : Type} {l : List α} (h : l.length ≤ 1)
    {a b : α} (ha : a ∈ l) (hb : b ∈ l) : a = b := by
  cases l with
  | nil => cases ha
  | cons x xs =>
    cases xs with
    | nil =>
      simp only [List.mem_singleton] at ha hb
      rw [ha, hb]
    | cons y ys => simp at h

theorem dtypeCollect_spec (cols : List String) (t : Table)
    (h : ∀ col ∈ cols, (t.find? col).isSome) :
    ∀ acc, ∃ tys, dtypeCollect cols t acc = (tys, .ok ()) ∧
      (∀ d, d ∈ tys ↔ d ∈ acc ∨ ∃ col ∈ cols, ∃ cl, t.find? col = some cl ∧ cl.dtype = d) ∧
      (acc.Nodup → tys.Nodup) := by
  induction cols with
  | nil =>
    intro acc
    exact ⟨acc, rfl, fun d => by simp, fun hn => hn⟩
  | cons col rest ih =>
    intro acc
    obtain ⟨cl, hfind⟩ := Option.isSome_iff_exists.mp (h col (List.mem_cons_self col rest))
    have hstep : dtypeCollect (col :: rest) t acc =
        dtypeCollect rest t (if cl.dtype ∈ acc then acc else acc ++ [cl.dtype]) := by
      simp only [dtypeCollect, colLoop, hfind]
    obtain ⟨tys, heq, hmem, hnd⟩ :=
      ih (fun z hz => h z (List.mem_cons_of_mem col hz))
        (if cl.dtype ∈ acc then acc else acc ++ [cl.dtype])
    refine ⟨tys, by rw [hstep, heq], fun d => ?_, fun hn => ?_⟩
    · rw [hmem d]
      have hacc : d ∈ (if cl.dtype ∈ acc then acc else acc ++ [cl.dtype]) ↔
          d ∈ acc ∨ d = cl.dtype := by
        split
        · constructor
          · intro hd; exact Or.inl hd
          · intro hd
            rcases hd with hd | hd
            · exact hd
            · rw [hd]; assumption
        · simp [List.mem_append]
      rw [hacc]
      constructor
      · intro hd
        rcases hd with (hd | hd) | hd
        · exact Or.inl hd
        · exact Or.inr ⟨col, List.mem_cons_self col rest, cl, hfind, hd.symm⟩
        · obtain ⟨c2, hc2, cl2, hf2, hd2⟩ := hd
          exact Or.inr ⟨c2, List.mem_cons_of_mem col hc2, cl2, hf2, hd2⟩
      · intro hd
        rcases hd with hd | ⟨c2, hc2, cl2, hf2, hd2⟩
        · exact Or.inl (Or.inl hd)
        · rcases List.mem_cons.mp hc2 with rfl | hc2
          · rw [hfind] at hf2
            injection hf2 with hcl
            exact Or.inl (Or.inr (by rw [← hd2, hcl]))
          · exact Or.inr ⟨c2, hc2, cl2, hf2, hd2⟩
    · apply hnd
      split
      · exact hn
      · exact List.Nodup.append hn (List.nodup_singleton _)
          (by
            intro x hx hy
            simp only [List.mem_singleton] at hy
            subst hy
            next hna => exact hna hx)

/-- C8: the type-consistency check with fewer than two target columns
returns without raising for every table (never touching it); with two or
more target columns, all present, it returns normally iff all the target
columns share one dtype, the only possible failure is the
`ValidDataException` carrying the collected dtypes, and that payload holds
exactly the distinct dtypes of the target columns (a set, not a
column-to-type mapping). -/
theorem dataConsistency_type_check :
    (∀ (cols : List String) (t : Table), cols.length < 2 →
      Chk.apply (.dataConsistency cols) t = ⟨t, .dataConsistency cols, .ok ()⟩) ∧
    (∀ (cols : List String) (t : Table), 2 ≤ cols.length →
      (∀ col ∈ cols, (t.find? col).isSome) →
      (((Chk.apply (.dataConsistency cols) t).out = .ok ()) ↔
        (∀ c1 ∈ cols, ∀ c2 ∈ cols, ∀ cl1 cl2,
          t.find? c1 = some cl1 → t.find? c2 = some cl2 → cl1.dtype = cl2.dtype)) ∧
      (∀ D, (Chk.apply (.dataConsistency cols) t).out = .error (.inconsistentTypes D) →
        ∀ d, (d ∈ D ↔ ∃ col ∈ cols, ∃ cl, t.find? col = some cl ∧ cl.dtype = d)) ∧
      ((Chk.apply (.dataConsistency cols) t).out = .ok () ∨
        ∃ D, (Chk.apply (.dataConsistency cols) t).out = .error (.inconsistentTypes D))) := by
  constructor
  · intro cols t hlt
    simp only [Chk.apply]
    rw [if_pos hlt]
  · intro cols t hge hpres
    obtain ⟨tys, heq, hmem, hnd⟩ := dtypeCollect_spec cols t hpres []
    have hnodup : tys.Nodup := hnd List.nodup_nil
    have hout : (Chk.apply (.dataConsistency cols) t).out = consistencyOut (tys, .ok ()) := by
      simp only [Chk.apply]
      rw [if_neg (by omega), heq]
    have hmem' : ∀ d, d ∈ tys ↔ ∃ col ∈ cols, ∃ cl, t.find? col = some cl ∧ cl.dtype = d := by
      intro d
      rw [hmem d]
      simp
    refine ⟨?_, ?_, ?_⟩
    · constructor
      · intro hok c1 hc1 c2 hc2 cl1 cl2 hf1 hf2
        rw [hout] at hok
        simp only [consistencyOut] at hok
        by_cases hlen : tys.length ≤ 1
        · exact eq_of_mem_length_le_one hlen
            ((hmem' cl1.dtype).mpr ⟨c1, hc1, cl1, hf1, rfl⟩)
            ((hmem' cl2.dtype).mpr ⟨c2, hc2, cl2, hf2, rfl⟩)
        · rw [if_neg hlen] at hok
          cases hok
      · intro hall
        rw [hout]
        simp only [consistencyOut]
        rw [if_pos]
        cases htys : tys with
        | nil => simp
        | cons d ds =>
          cases hds : ds with
          | nil => simp
          | cons d2 ds2 =>
            exfalso
            have hd : d ∈ tys := by rw [htys]; exact List.mem_cons_self _ _
            have hd2 : d2 ∈ tys := by
              rw [htys, hds]
              exact List.mem_cons_of_mem _ (List.mem_cons_self _ _)
            obtain ⟨c1, hc1, cl1, hf1, hdt1⟩ := (hmem' d).mp hd
            obtain ⟨c2, hc2, cl2, hf2, hdt2⟩ := (hmem' d2).mp hd2
            have : d = d2 := by
              rw [← hdt1, ← hdt2]
              exact hall c1 hc1 c2 hc2 cl1 cl2 hf1 hf2
            rw [htys, hds] at hnodup
            rw [List.nodup_cons] at hnodup
            exact hnodup.1 (this ▸ List.mem_cons_self d2 ds2)
    · intro D hD d
      rw [hout] at hD
      simp only [consistencyOut] at hD
      by_cases hlen : tys.length ≤ 1
      · rw [if_pos hlen] at hD
        cases hD
      · rw [if_neg hlen] at hD
        injection hD with hD2
        injection hD2 with hD3
        rw [← hD3]
        exact hmem' d
    · rw [hout]
      simp only [consistencyOut]
      by_cases hlen : tys.length ≤ 1
      · rw [if_pos hlen]
        exact Or.inl rfl
      · rw [if_neg hlen]
        exact Or.inr ⟨tys, rfl⟩

/-- C8 witness: a single-target consistency check never raises even on a
table lacking that column; a two-target check on two int64 columns returns
normally, whence both columns share a dtype. -/
theorem dataConsistency_type_check_witness :
    Chk.apply (.dataConsistency ["x"]) ⟨[("a", ⟨.float64, []⟩)]⟩ =
      ⟨⟨[("a", ⟨.float64, []⟩)]⟩, .dataConsistency ["x"], .ok ()⟩ ∧
    (∀ c1 ∈ ["a", "b"], ∀ c2 ∈ ["a", "b"], ∀ cl1 cl2,
      (⟨[("a", ⟨.int64, [.vInt 1]⟩), ("b", ⟨.int64, []⟩)]⟩ : Table).find? c1 = some cl1 →
      (⟨[("a", ⟨.int64, [.vInt 1]⟩), ("b", ⟨.int64, []⟩)]⟩ : Table).find? c2 = some cl2 →
      cl1.dtype = cl2.dtype) :=
  ⟨dataConsistency_type_check.1 ["x"] ⟨[("a", ⟨.float64, []⟩)]⟩ (by norm_num),
   ((dataConsistency_type_check.2 ["a", "b"]
      ⟨[("a", ⟨.int64, [.vInt 1]⟩), ("b", ⟨.int64, []⟩)]⟩
      (by norm_num) (by decide)).1).mp (by decide)⟩

theorem lookupIssue_updAssoc_self (col : String) (v : Value) :
    ∀ m, lookupIssue col (updAssoc col v m) = some v := by
  intro m
  induction m with
  | nil => simp [updAssoc, lookupIssue]
  | cons p rest ih =>
    obtain ⟨c, w⟩ := p
    simp only [updAssoc]
    by_cases hc : c = col
    · rw [if_pos hc]
      simp [lookupIssue, hc]
    · rw [if_neg hc]
      simp only [lookupIssue, if_neg hc]
      exact ih

theorem lookupIssue_updAssoc_ne (col col' : String) (v : Value) (h : col' ≠ col) :
    ∀ m, lookupIssue col' (updAssoc col v m) = lookupIssue col' m := by
  intro m
  induction m with
  | nil =>
    simp only [updAssoc, lookupIssue]
    rw [if_neg (fun hh => h hh.symm)]
  | cons p rest ih =>
    obtain ⟨c, w⟩ := p
    simp only [updAssoc]
    by_cases hc : c = col
    · rw [if_pos hc]
      simp only [lookupIssue]
      rw [if_neg (by rw [hc]; exact fun hh => h hh.symm),
        if_neg (by rw [hc]; exact fun hh => h hh.symm)]
    · rw [if_neg hc]
      simp only [lookupIssue]
      split
      · rfl
      · exact ih

theorem lastMatch_eq_none_iff (G : List Value) :
    ∀ cells, lastMatch G cells = none ↔ ∀ v ∈ cells, v ∉ G := by
  intro cells
  induction cells with
  | nil => simp [lastMatch]
  | cons v vs ih =>
    simp only [lastMatch]
    cases hlm : lastMatch G vs with
    | some w =>
      constructor
      · intro h; cases h
      · intro h
        have := ih.mpr (fun z hz => h z (List.mem_cons_of_mem v hz))
        rw [hlm] at this
        cases this
    | none =>
      by_cases hv : v ∈ G
      · rw [if_pos hv]
        constructor
        · intro h; cases h
        · intro h
          exact absurd hv (h v (List.mem_cons_self v vs))
      · rw [if_neg hv]
        constructor
        · intro _ z hz
          rcases List.mem_cons.mp hz with rfl | hz2
          · exact hv
          · exact ih.mp hlm z hz2
        · intro _; rfl

theorem gibCol_lookup (G : List Value) (col : String) (cells : List Value) :
    ∀ (found : List (String × Value)) (col' : String),
      lookupIssue col' (gibCol G col found cells) =
        if col' = col then
          (match lastMatch G cells with
           | some w => some w
           | none => lookupIssue col' found)
        else lookupIssue col' found := by
  induction cells with
  | nil =>
    intro found col'
    simp only [gibCol, List.foldl_nil, lastMatch]
    split <;> rfl
  | cons v vs ih =>
    intro found col'
    have hstep : gibCol G col found (v :: vs) = gibCol G col (gibCell G col found v) vs := rfl
    rw [hstep, ih]
    by_cases hcc : col' = col
    · rw [if_pos hcc, if_pos hcc]
      cases hlm : lastMatch G vs with
      | some w => simp only [lastMatch, hlm]
      | none =>
        simp only [lastMatch, hlm]
        by_cases hv : v ∈ G
        · rw [if_pos hv]
          simp only [gibCell, if_pos hv]
          rw [hcc]
          exact lookupIssue_updAssoc_self col v found
        · rw [if_neg hv]
          simp only [gibCell, if_neg hv]
    · rw [if_neg hcc, if_neg hcc]
      simp only [gibCell]
      split
      · exact lookupIssue_updAssoc_ne col col' v hcc found
      · rfl

theorem gibCol_no_match (G : List Value) (col : String) (cells : List Value)
    (h : ∀ v ∈ cells, v ∉ G) : ∀ found, gibCol G col found cells = found := by
  induction cells with
  | nil => intro found; rfl
  | cons v vs ih =>
    intro found
    have hstep : gibCol G col found (v :: vs) = gibCol G col (gibCell G col found v) vs := rfl
    rw [hstep]
    have hv : gibCell G col found v = found := by
      simp only [gibCell]
      rw [if_neg (h v (List.mem_cons_self v vs))]
    rw [hv]
    exact ih (fun z hz => h z (List.mem_cons_of_mem v hz)) found

theorem gibLoop_spec (G : List Value) (cols : List String) (t : Table)
    (hpres : ∀ col ∈ cols, (t.find? col).isSome) :
    ∀ found, ∃ found',
      colLoop (fun col c acc => gibCol G col acc c.cells) cols t found = (found', .ok ()) ∧
      ∀ col', lookupIssue col' found' =
        if col' ∈ cols then
          (match t.find? col' with
           | some cl =>
             (match lastMatch G cl.cells with
              | some v => some v
              | none => lookupIssue col' found)
           | none => lookupIssue col' found)
        else lookupIssue col' found := by
  induction cols with
  | nil =>
    intro found
    refine ⟨found, rfl, fun col' => ?_⟩
    rw [if_neg (List.not_mem_nil col')]
  | cons col rest ih =>
    intro found
    obtain ⟨cl, hfind⟩ := Option.isSome_iff_exists.mp (hpres col (List.mem_cons_self col rest))
    obtain ⟨found', heq, hchar⟩ :=
      ih (fun z hz => hpres z (List.mem_cons_of_mem col hz)) (gibCol G col found cl.cells)
    refine ⟨found', ?_, fun col' => ?_⟩
    · simp only [colLoop, hfind]
      exact heq
    · rw [hchar col']
      by_cases hmem : col' ∈ rest
      · rw [if_pos hmem, if_pos (List.mem_cons_of_mem col hmem)]
        cases hf2 : t.find? col' with
        | none =>
          exact absurd (hpres col' (List.mem_cons_of_mem col hmem)) (by rw [hf2]; simp)
        | some cl2 =>
          cases hlm : lastMatch G cl2.cells with
          | some v => simp only [hlm]
          | none =>
            simp only [hlm]
            rw [gibCol_lookup]
            by_cases hcc : col' = col
            · rw [if_pos hcc]
              rw [hcc] at hf2
              rw [hfind] at hf2
              injection hf2 with h2
              rw [h2, hlm]
            · rw [if_neg hcc]
      · by_cases hcol : col' = col
        · subst hcol
          rw [if_neg hmem, if_pos (List.mem_cons_self col' rest), hfind]
          rw [gibCol_lookup, if_pos rfl]
        · have hno : col' ∉ col :: rest := by
            intro hx
            rcases List.mem_cons.mp hx with h | h
            · exact hcol h
            · exact hmem h
          rw [if_neg hmem, if_neg hno]
          rw [gibCol_lookup, if_neg hcol]

theorem gibLoop_no_match (G : List Value) (cols : List String) (t : Table)
    (h : ∀ col ∈ cols, ∃ cl, t.find? col = some cl ∧ ∀ v ∈ cl.cells, v ∉ G) :
    ∀ found, colLoop (fun col c acc => gibCol G col acc c.cells) cols t found =
      (found, .ok ()) := by
  intro found
  refine colLoop_const _ cols t ?_ found
  intro col hcol
  obtain ⟨cl, hfind, hcl⟩ := h col hcol
  exact ⟨cl, hfind, fun s' => gibCol_no_match G col cl.cells hcl s'⟩

/-- C6: the forbidden-value check, as constructed (empty state), with all
target columns present: it raises iff some cell of some target column equals
an entry of the forbidden list, the only possible failure is the
`ValidDataException` carrying the `_found_issues` mapping, and that mapping
sends each target column to the last matching cell in the column's storage
order (later matches overwrite earlier ones) and holds nothing for
non-target columns. -/
theorem gibberish_forbidden_values (cols : List String) (G : List Value) (t : Table)
    (hpres : ∀ col ∈ cols, (t.find? col).isSome) :
    (((Chk.apply (.gibberish cols G []) t).out = .ok ()) ↔
      (∀ col ∈ cols, ∀ cl, t.find? col = some cl → ∀ v ∈ cl.cells, v ∉ G)) ∧
    (∀ m, (Chk.apply (.gibberish cols G []) t).out = .error (.gibberishFound m) →
      (∀ col ∈ cols, ∀ cl, t.find? col = some cl →
        lookupIssue col m = lastMatch G cl.cells) ∧
      (∀ col, col ∉ cols → lookupIssue col m = none)) ∧
    (((Chk.apply (.gibberish cols G []) t).out = .ok ()) ∨
      ∃ m, (Chk.apply (.gibberish cols G []) t).out = .error (.gibberishFound m)) := by
  obtain ⟨found', heq, hchar⟩ := gibLoop_spec G cols t hpres []
  have hout : (Chk.apply (.gibberish cols G []) t).out =
      raiseFound Err.gibberishFound List.isEmpty (found', .ok ()) := by
    simp only [Chk.apply]
    rw [heq]
  have hchar' : ∀ col', lookupIssue col' found' =
      if col' ∈ cols then
        (match t.find? col' with
         | some cl =>
           (match lastMatch G cl.cells with
            | some v => some v
            | none => none)
         | none => none)
      else none := by
    intro col'
    rw [hchar col']
    rfl
  refine ⟨?_, ?_, ?_⟩
  · rw [hout]
    simp only [raiseFound]
    constructor
    · intro hok col hcol cl hfind v hv hvG
      have hemp : found'.isEmpty = true := by
        by_contra hne
        rw [Bool.not_eq_true] at hne
        rw [if_neg (by rw [hne]; exact Bool.false_ne_true)] at hok
        cases hok
      have hfe : found' = [] := List.isEmpty_iff.mp hemp
      have hlm : lastMatch G cl.cells ≠ none := by
        rw [Ne, lastMatch_eq_none_iff]
        intro hall
        exact hall v hv hvG
      obtain ⟨w, hw⟩ := Option.ne_none_iff_exists'.mp hlm
      have := hchar' col
      rw [hfe, if_pos hcol, hfind] at this
      simp only [hw, lookupIssue] at this
      cases this
    · intro hall
      have hloop := gibLoop_no_match G cols t
        (by
          intro col hcol
          obtain ⟨cl, hfind⟩ := Option.isSome_iff_exists.mp (hpres col hcol)
          exact ⟨cl, hfind, hall col hcol cl hfind⟩) []
      rw [heq] at hloop
      injection hloop with h1 h2
      rw [h1]
      rfl
  · intro m hm
    rw [hout] at hm
    simp only [raiseFound] at hm
    by_cases hemp : found'.isEmpty
    · rw [if_pos hemp] at hm
      cases hm
    · rw [if_neg hemp] at hm
      injection hm with hm2
      injection hm2 with hm3
      constructor
      · intro col hcol cl hfind
        rw [← hm3, hchar' col, if_pos hcol, hfind]
        cases hlm2 : lastMatch G cl.cells <;> simp only [hlm2]
      · intro col hcol
        rw [← hm3, hchar' col, if_neg hcol]
  · rw [hout]
    simp only [raiseFound]
    by_cases hemp : found'.isEmpty
    · rw [if_pos hemp]
      exact Or.inl rfl
    · rw [if_neg hemp]
      exact Or.inr ⟨found', rfl⟩

/-- C6 witness: forbidden list `??`, `N/A` and a column holding
`??`, `x`, `N/A` in order: the check raises and reports `N/A` — the last
match — for that column. -/
theorem gibberish_forbidden_values_witness :
    (Chk.apply (.gibberish ["c"] [.vStr "??", .vStr "N/A"] [])
        ⟨[("c", ⟨.object, [.vStr "??", .vStr "x", .vStr "N/A"]⟩)]⟩).out =
      .error (.gibberishFound [("c", .vStr "N/A")]) ∧
    lookupIssue "c" [("c", Value.vStr "N/A")] =
      lastMatch [Value.vStr "??", Value.vStr "N/A"]
        [Value.vStr "??", Value.vStr "x", Value.vStr "N/A"] ∧
    lastMatch [Value.vStr "??", Value.vStr "N/A"]
        [Value.vStr "??", Value.vStr "x", Value.vStr "N/A"] = some (Value.vStr "N/A") := by
  refine ⟨by decide, ?_, by decide⟩
  exact ((gibberish_forbidden_values ["c"] [.vStr "??", .vStr "N/A"]
      ⟨[("c", ⟨.object, [.vStr "??", .vStr "x", .vStr "N/A"]⟩)]⟩ (by decide)).2.1
    [("c", .vStr "N/A")] (by decide)).1 "c" (List.mem_cons_self "c" [])
    ⟨.object, [.vStr "??", .vStr "x", .vStr "N/A"]⟩ (by decide)

theorem lookupCols_setCols_self (n : String) (c : Column) :
    ∀ l, lookupCols n (setCols n c l) = some c := by
  intro l
  induction l with
  | nil => simp [setCols, lookupCols]
  | cons p rest ih =>
    obtain ⟨k, d⟩ := p
    simp only [setCols]
    by_cases hk : k = n
    · rw [if_pos hk]
      simp [lookupCols, hk]
    · rw [if_neg hk]
      simp only [lookupCols, if_neg hk]
      exact ih

theorem lookupCols_setCols_ne (n m : String) (c : Column) (h : m ≠ n) :
    ∀ l, lookupCols m (setCols n c l) = lookupCols m l := by
  intro l
  induction l with
  | nil =>
    simp only [setCols, lookupCols]
    rw [if_neg (fun hh => h hh.symm)]
  | cons p rest ih =>
    obtain ⟨k, d⟩ := p
    simp only [setCols]
    by_cases hk : k = n
    · rw [if_pos hk]
      simp only [lookupCols]
      rw [if_neg (by rw [hk]; exact fun hh => h hh.symm),
        if_neg (by rw [hk]; exact fun hh => h hh.symm)]
    · rw [if_neg hk]
      simp only [lookupCols]
      split
      · rfl
      · exact ih

theorem setCols_lookup_self (n : String) (c : Column) :
    ∀ l, lookupCols n l = some c → setCols n c l = l := by
  intro l
  induction l with
  | nil => intro h; cases h
  | cons p rest ih =>
    obtain ⟨k, d⟩ := p
    intro h
    simp only [lookupCols] at h
    simp only [setCols]
    by_cases hk : k = n
    · rw [if_pos hk]
      rw [if_pos hk] at h
      injection h with h2
      rw [h2]
    · rw [if_neg hk]
      rw [if_neg hk] at h
      rw [ih h]

theorem find?_set_self (t : Table) (n : String) (c : Column) :
    (t.set n c).find? n = some c :=
  lookupCols_setCols_self n c t.cols

theorem find?_set_ne (t : Table) (n m : String) (c : Column) (h : m ≠ n) :
    (t.set n c).find? m = t.find? m :=
  lookupCols_setCols_ne n m c h t.cols

theorem set_find_eq_self (t : Table) (n : String) (c : Column)
    (h : t.find? n = some c) : t.set n c = t := by
  have := setCols_lookup_self n c t.cols h
  simp only [Table.set, this]

theorem pdTimestampOfString_valid (s : String) (ts : PdTimestamp)
    (h : pdTimestampOfString s = some ts) : ts.valid = true := by
  rw [pdTimestampOfString] at h
  cases hp : parseChars s.data with
  | none => rw [hp] at h; cases h
  | some ts2 =>
    simp only [hp] at h
    by_cases hv : ts2.valid = true
    · rw [if_pos hv] at h
      injection h with h2
      rw [← h2]
      exact hv
    · rw [if_neg hv] at h
      cases h

theorem normalizeCell_idem (v w : Value) (h : normalizeCell v = some w) :
    normalizeCell w = some w := by
  cases v with
  | vInt n => cases h
  | vNan => cases h
  | vStr s =>
    simp only [normalizeCell] at h
    cases hp : pdTimestampOfString s with
    | none => rw [hp] at h; cases h
    | some ts =>
      rw [hp] at h
      simp only [Option.map] at h
      have hval : ts.valid = true := by
        apply pdTimestampOfString_valid s ts
        exact hp
      injection h with h2
      rw [← h2]
      simp only [normalizeCell, pdTimestampOfString_strftime ts hval, Option.map]

theorem normalizeCells_out_canonical :
    ∀ (cells ws : List Value), normalizeCells cells = .ok ws →
      ∀ w ∈ ws, normalizeCell w = some w := by
  intro cells
  induction cells with
  | nil =>
    intro ws h
    injection h with h2
    rw [← h2]
    intro w hw
    cases hw
  | cons v vs ih =>
    intro ws h
    simp only [normalizeCells] at h
    cases hv : normalizeCell v with
    | none => rw [hv] at h; cases h
    | some w0 =>
      rw [hv] at h
      cases hr : normalizeCells vs with
      | error e => rw [hr] at h; cases h
      | ok ws0 =>
        rw [hr] at h
        injection h with h2
        rw [← h2]
        intro w hw
        rcases List.mem_cons.mp hw with rfl | hw2
        · exact normalizeCell_idem v w hv
        · exact ih ws0 hr w hw2

theorem normalizeCells_canonical :
    ∀ cells : List Value, (∀ v ∈ cells, normalizeCell v = some v) →
      normalizeCells cells = .ok cells := by
  intro cells
  induction cells with
  | nil => intro _; rfl
  | cons v vs ih =>
    intro h
    simp only [normalizeCells, h v (List.mem_cons_self v vs),
      ih (fun z hz => h z (List.mem_cons_of_mem v hz))]

theorem normalizeCells_ok_of_isSome :
    ∀ cells : List Value, (∀ v ∈ cells, (normalizeCell v).isSome) →
      ∃ ws, normalizeCells cells = .ok ws := by
  intro cells
  induction cells with
  | nil => intro _; exact ⟨[], rfl⟩
  | cons v vs ih =>
    intro h
    obtain ⟨w, hw⟩ := Option.isSome_iff_exists.mp (h v (List.mem_cons_self v vs))
    obtain ⟨ws, hws⟩ := ih (fun z hz => h z (List.mem_cons_of_mem v hz))
    exact ⟨w :: ws, by simp only [normalizeCells, hw, hws]⟩

theorem tsLoop_preserves_canonical :
    ∀ (cols : List String) (t t' : Table), tsLoop cols t = (t', .ok ()) →
      ∀ (col : String) (cl : Column), t.find? col = some cl → canonicalCol cl →
      t'.find? col = some cl := by
  intro cols
  induction cols with
  | nil =>
    intro t t' h col cl hfind hcan
    injection h with h1 h2
    rw [← h1]
    exact hfind
  | cons c0 rest ih =>
    intro t t' h col cl hfind hcan
    simp only [tsLoop] at h
    cases hf0 : t.find? c0 with
    | none =>
      simp only [hf0] at h
      injection h with h1 h2
      cases h2
    | some d =>
      simp only [hf0] at h
      cases hn : normalizeCells d.cells with
      | error e =>
        simp only [hn] at h
        injection h with h1 h2
        cases h2
      | ok ws =>
        simp only [hn] at h
        by_cases hc : col = c0
        · rw [hc] at hfind
          rw [hfind] at hf0
          injection hf0 with hd
          have hws : ws = cl.cells := by
            rw [← hd] at hn
            rw [normalizeCells_canonical cl.cells hcan.2] at hn
            injection hn with h2
            rw [h2]
          have hcleq : (⟨.object, cl.cells⟩ : Column) = cl := by
            obtain ⟨dt, cs⟩ := cl
            obtain ⟨h1, -⟩ := hcan
            simp only at h1
            rw [h1]
          have hset : t.set c0 ⟨.object, ws⟩ = t.set c0 cl := by
            rw [hws, hcleq]
          rw [hset] at h
          have hfindnew : (t.set c0 cl).find? col = some cl := by
            rw [hc]
            exact find?_set_self t c0 cl
          exact ih (t.set c0 cl) t' h col cl hfindnew hcan
        · have hfindnew : (t.set c0 ⟨.object, ws⟩).find? col = some cl := by
            rw [find?_set_ne t c0 col _ hc]
            exact hfind
          exact ih _ t' h col cl hfindnew hcan

theorem tsLoop_result_canonical :
    ∀ (cols : List String) (t t' : Table), tsLoop cols t = (t', .ok ()) →
      ∀ col ∈ cols, ∃ cl, t'.find? col = some cl ∧ canonicalCol cl := by
  intro cols
  induction cols with
  | nil => intro t t' h col hcol; cases hcol
  | cons c0 rest ih =>
    intro t t' h col hcol
    simp only [tsLoop] at h
    cases hf0 : t.find? c0 with
    | none =>
      simp only [hf0] at h
      injection h with h1 h2
      cases h2
    | some d =>
      simp only [hf0] at h
      cases hn : normalizeCells d.cells with
      | error e =>
        simp only [hn] at h
        injection h with h1 h2
        cases h2
      | ok ws =>
        simp only [hn] at h
        have hwscan : canonicalCol ⟨.object, ws⟩ :=
          ⟨rfl, normalizeCells_out_canonical d.cells ws hn⟩
        rcases List.mem_cons.mp hcol with rfl | hcol2
        · refine ⟨⟨.object, ws⟩, ?_, hwscan⟩
          exact tsLoop_preserves_canonical rest _ t' h col ⟨.object, ws⟩
            (find?_set_self t col ⟨.object, ws⟩) hwscan
        · exact ih _ t' h col hcol2

theorem tsLoop_canonical_fixpoint :
    ∀ (cols : List String) (t : Table),
      (∀ col ∈ cols, ∃ cl, t.find? col = some cl ∧ canonicalCol cl) →
      tsLoop cols t = (t, .ok ()) := by
  intro cols
  induction cols with
  | nil => intro t _; rfl
  | cons c0 rest ih =>
    intro t h
    obtain ⟨cl, hfind, hcan⟩ := h c0 (List.mem_cons_self c0 rest)
    simp only [tsLoop, hfind, normalizeCells_canonical cl.cells hcan.2]
    have hcl : (⟨.object, cl.cells⟩ : Column) = cl := by
      obtain ⟨dt, cs⟩ := cl
      obtain ⟨h1, -⟩ := hcan
      simp only at h1
      rw [h1]
    rw [hcl, set_find_eq_self t c0 cl hfind]
    exact ih t (fun z hz => h z (List.mem_cons_of_mem c0 hz))

/-- C9: timestamp normalization is idempotent — when an `apply` of the
timestamp check succeeds, applying the same check to the resulting table
succeeds again and rewrites every cell to the canonical string it already
holds, leaving the table unchanged. -/
theorem timeStamps_idempotent (cols : List String) (t : Table)
    (h : (Chk.apply (.timeStamps cols) t).out = .ok ()) :
    Chk.apply (.timeStamps cols) (Chk.apply (.timeStamps cols) t).table =
      ⟨(Chk.apply (.timeStamps cols) t).table, .timeStamps cols, .ok ()⟩ := by
  rcases hp : tsLoop cols t with ⟨t1, out⟩
  have hout : out = .ok () := by
    have hx : (Chk.apply (.timeStamps cols) t).out = out := by
      simp only [Chk.apply, hp]
    exact hx.symm.trans h
  subst hout
  have hcanon := tsLoop_result_canonical cols t t1 hp
  have hfix := tsLoop_canonical_fixpoint cols t1 hcanon
  have htable : (Chk.apply (.timeStamps cols) t).table = t1 := by
    simp only [Chk.apply, hp]
  rw [htable]
  simp only [Chk.apply, hfix]

/-- C9 witness: a date-only cell is normalized to canonical form by the
first apply and reproduced verbatim by the second. -/
theorem timeStamps_idempotent_witness :
    (Chk.apply (.timeStamps ["d"])
        ⟨[("d", ⟨.object, [.vStr "2014-02-01"]⟩)]⟩).table =
      ⟨[("d", ⟨.object, [.vStr "2014-02-01 00:00:00"]⟩)]⟩ ∧
    Chk.apply (.timeStamps ["d"]) ⟨[("d", ⟨.object, [.vStr "2014-02-01 00:00:00"]⟩)]⟩ =
      ⟨⟨[("d", ⟨.object, [.vStr "2014-02-01 00:00:00"]⟩)]⟩, .timeStamps ["d"], .ok ()⟩ := by
  have ht : (Chk.apply (.timeStamps ["d"])
      ⟨[("d", ⟨.object, [.vStr "2014-02-01"]⟩)]⟩).table =
      ⟨[("d", ⟨.object, [.vStr "2014-02-01 00:00:00"]⟩)]⟩ := by decide
  refine ⟨ht, ?_⟩
  have := timeStamps_idempotent ["d"] ⟨[("d", ⟨.object, [.vStr "2014-02-01"]⟩)]⟩ (by decide)
  rw [ht] at this
  exact this

theorem columnOk_eq_true (t : Table) (col : String) (p : Column → Bool) :
    columnOk t col p = true ↔ ∃ cl, t.find? col = some cl ∧ p cl = true := by
  simp only [columnOk]
  cases h : t.find? col with
  | none => simp
  | some cl => simp

theorem dvCol_no_issue (P : List Value) (col : String) (cells : List Value)
    (h : ∀ v ∈ cells, v ∈ P) : ∀ found, dvCol P col found cells = found := by
  induction cells with
  | nil => intro found; rfl
  | cons v vs ih =>
    intro found
    have hstep : dvCol P col found (v :: vs) = dvCol P col (dvCell P col found v) vs := rfl
    rw [hstep]
    have hv : dvCell P col found v = found := by
      simp only [dvCell]
      rw [if_pos (h v (List.mem_cons_self v vs))]
    rw [hv]
    exact ih (fun z hz => h z (List.mem_cons_of_mem v hz)) found

theorem fdCol_ok (now : PdTimestamp) (col : String) (cells : List Value)
    (h : ∀ v ∈ cells, (match v with
      | Value.vNan => true
      | Value.vInt _ => false
      | Value.vStr s =>
        match pdTimestampOfString s with
        | some ts => !decide (now.toKey < ts.toKey)
        | none => false) = true) :
    ∀ found, fdCol now col cells found = (found, .ok ()) := by
  induction cells with
  | nil => intro found; rfl
  | cons v vs ih =>
    intro found
    have hv := h v (List.mem_cons_self v vs)
    have hrest := fun z hz => h z (List.mem_cons_of_mem v hz)
    cases v with
    | vNan => exact ih hrest found
    | vInt n => cases hv
    | vStr s =>
      simp only at hv
      cases hp : pdTimestampOfString s with
      | none => rw [hp] at hv; cases hv
      | some ts =>
        rw [hp] at hv
        simp only [Bool.not_eq_true', decide_eq_false_iff_not] at hv
        simp only [fdCol, hp]
        rw [if_neg hv]
        exact ih hrest found

theorem fdLoop_const (now : PdTimestamp) (cols : List String) (t : Table)
    (h : ∀ col ∈ cols, ∃ cl, t.find? col = some cl ∧ ∀ v ∈ cl.cells,
      (match v with
        | Value.vNan => true
        | Value.vInt _ => false
        | Value.vStr s =>
          match pdTimestampOfString s with
          | some ts => !decide (now.toKey < ts.toKey)
          | none => false) = true) :
    ∀ found, fdLoop now cols t found = (found, .ok ()) := by
  induction cols with
  | nil => intro found; rfl
  | cons col rest ih =>
    intro found
    obtain ⟨cl, hfind, hcl⟩ := h col (List.mem_cons_self col rest)
    simp only [fdLoop, hfind, fdCol_ok now col cl.cells hcl found]
    exact ih (fun z hz => h z (List.mem_cons_of_mem col hz)) found

theorem rangeFlag_false (rs re : Int) (xs : List Int)
    (h : ∀ x ∈ xs, rs ≤ x ∧ x ≤ re) : rangeFlag rs re xs = false := by
  simp only [rangeFlag, Bool.or_eq_false_iff, List.any_eq_false]
  constructor
  · intro x hx
    simp only [decide_eq_true_eq]
    have := h x hx
    omega
  · intro x hx
    simp only [decide_eq_true_eq]
    have := h x hx
    omega

theorem rangeLoop_const (rs re : Int) (cols : List String) (t : Table)
    (h : ∀ col ∈ cols, ∃ cl, t.find? col = some cl ∧ ∃ xs,
      intsSkipNan cl.cells = some xs ∧ ∀ x ∈ xs, rs ≤ x ∧ x ≤ re) :
    ∀ found, rangeLoop rs re cols t found = (found, .ok ()) := by
  induction cols with
  | nil => intro found; rfl
  | cons col rest ih =>
    intro found
    obtain ⟨cl, hfind, xs, hxs, hall⟩ := h col (List.mem_cons_self col rest)
    simp only [rangeLoop, hfind, hxs, rangeFlag_false rs re xs hall, if_neg]
    exact ih (fun z hz => h z (List.mem_cons_of_mem col hz)) found

theorem relevancyScan_nil (expected : List String) (l : List (String × Column))
    (h : ∀ p ∈ l, p.1 ∈ expected) : relevancyScan expected l = [] := by
  have hgen : ∀ acc, l.foldl
      (fun acc p => if p.1 ∈ expected then acc else acc ++ [p.1]) acc = acc := by
    induction l with
    | nil => intro acc; rfl
    | cons p rest ih =>
      intro acc
      simp only [List.foldl_cons]
      rw [if_pos (h p (List.mem_cons_self p rest))]
      exact ih (fun z hz => h z (List.mem_cons_of_mem p hz)) acc
  exact hgen []

theorem consistencyOut_ok_of_pairwise (cols : List String) (t : Table)
    (hpres : ∀ col ∈ cols, (t.find? col).isSome)
    (hall : ∀ c1 ∈ cols, ∀ c2 ∈ cols, ∀ cl1 cl2,
      t.find? c1 = some cl1 → t.find? c2 = some cl2 → cl1.dtype = cl2.dtype) :
    consistencyOut (dtypeCollect cols t []) = .ok () := by
  obtain ⟨tys, heq, hmem, hnd⟩ := dtypeCollect_spec cols t hpres []
  rw [heq]
  simp only [consistencyOut]
  rw [if_pos]
  cases htys : tys with
  | nil => simp
  | cons d ds =>
    cases hds : ds with
    | nil => simp
    | cons d2 ds2 =>
      exfalso
      have hd : d ∈ tys := by rw [htys]; exact List.mem_cons_self _ _
      have hd2 : d2 ∈ tys := by
        rw [htys, hds]
        exact List.mem_cons_of_mem _ (List.mem_cons_self _ _)
      have hmem' : ∀ d, d ∈ tys →
          ∃ col ∈ cols, ∃ cl, t.find? col = some cl ∧ cl.dtype = d := by
        intro d hdm
        have := (hmem d).mp hdm
        simpa using this
      obtain ⟨c1, hc1, cl1, hf1, hdt1⟩ := hmem' d hd
      obtain ⟨c2, hc2, cl2, hf2, hdt2⟩ := hmem' d2 hd2
      have hsame : d = d2 := by
        rw [← hdt1, ← hdt2]
        exact hall c1 hc1 c2 hc2 cl1 cl2 hf1 hf2
      have hnodup := hnd List.nodup_nil
      rw [htys, hds, List.nodup_cons] at hnodup
      exact hnodup.1 (hsame ▸ List.mem_cons_self d2 ds2)

theorem tsLoop_ok_of_parseable :
    ∀ (cols : List String) (t : Table),
      (∀ col ∈ cols, ∃ cl, t.find? col = some cl ∧
        ∀ v ∈ cl.cells, (normalizeCell v).isSome = true) →
      ∃ t', tsLoop cols t = (t', .ok ()) := by
  intro cols
  induction cols with
  | nil => intro t _; exact ⟨t, rfl⟩
  | cons c0 rest ih =>
    intro t h
    obtain ⟨cl, hfind, hcl⟩ := h c0 (List.mem_cons_self c0 rest)
    obtain ⟨ws, hws⟩ := normalizeCells_ok_of_isSome cl.cells hcl
    have hwscan := normalizeCells_out_canonical cl.cells ws hws
    obtain ⟨t', ht'⟩ := ih (t.set c0 ⟨.object, ws⟩)
      (by
        intro col hcol
        by_cases hc : col = c0
        · refine ⟨⟨.object, ws⟩, ?_, ?_⟩
          · rw [hc]
            exact find?_set_self t c0 ⟨.object, ws⟩
          · intro v hv
            rw [hwscan v hv]
            rfl
        · obtain ⟨cl2, hf2, hcl2⟩ := h col (List.mem_cons_of_mem c0 hcol)
          refine ⟨cl2, ?_, hcl2⟩
          rw [find?_set_ne t c0 col _ hc]
          exact hf2)
    refine ⟨t', ?_⟩
    simp only [tsLoop, hfind, hws]
    exact ht'

/-- C2 as amended: for every check whose variant-local accumulation state is
empty — as at construction — and every table already satisfying its rule,
`apply` returns without raising, leaves the state as it found it (so
repeated applies on satisfying tables keep succeeding), and, except for
timestamp normalization, returns the table unchanged.  The state is not
reset at the start of `apply`: an instance whose earlier `apply` recorded
violations keeps raising, which the counterexample exhibits. -/
theorem fresh_satisfying_apply_succeeds (c : Chk) (t : Table)
    (hfresh : c.freshState = true) (hsat : c.satisfies t = true) :
    (c.apply t).out = .ok () ∧ (c.apply t).chk = c ∧
      (c.isTimeStamps = false → (c.apply t).table = t) := by
  cases c with
  | timeStamps cols =>
    simp only [Chk.satisfies, List.all_eq_true] at hsat
    have hsat' : ∀ col ∈ cols, ∃ cl, t.find? col = some cl ∧
        ∀ v ∈ cl.cells, (normalizeCell v).isSome = true := by
      intro col hcol
      obtain ⟨cl, hfind, hp⟩ := (columnOk_eq_true t col _).mp (hsat col hcol)
      rw [List.all_eq_true] at hp
      exact ⟨cl, hfind, hp⟩
    obtain ⟨t', ht'⟩ := tsLoop_ok_of_parseable cols t hsat'
    refine ⟨?_, rfl, fun hts => ?_⟩
    · simp only [Chk.apply, ht']
    · exact Bool.noConfusion hts
  | blank cols =>
    simp only [Chk.satisfies, List.all_eq_true] at hsat
    have hloop := colLoop_const
      (fun col c acc => if c.cells.length = 0 then acc ++ [col] else acc) cols t
      (by
        intro col hcol
        obtain ⟨cl, hfind, hp⟩ := (columnOk_eq_true t col _).mp (hsat col hcol)
        rw [Bool.not_eq_true'] at hp
        refine ⟨cl, hfind, fun s' => ?_⟩
        show (if cl.cells.length = 0 then s' ++ [col] else s') = s'
        rw [if_neg]
        cases hc : cl.cells with
        | nil => rw [hc] at hp; cases hp
        | cons v vs => simp) []
    refine ⟨?_, rfl, fun _ => rfl⟩
    simp only [Chk.apply, raiseFound, hloop]
    rfl
  | gibberish cols G found =>
    simp only [Chk.freshState] at hfresh
    rw [List.isEmpty_iff] at hfresh
    subst hfresh
    simp only [Chk.satisfies, List.all_eq_true] at hsat
    have hloop := gibLoop_no_match G cols t
      (by
        intro col hcol
        obtain ⟨cl, hfind, hp⟩ := (columnOk_eq_true t col _).mp (hsat col hcol)
        rw [List.all_eq_true] at hp
        refine ⟨cl, hfind, fun v hv => ?_⟩
        have := hp v hv
        simp only [Bool.not_eq_true', decide_eq_false_iff_not] at this
        exact this) []
    refine ⟨?_, ?_, fun _ => rfl⟩
    · simp only [Chk.apply, raiseFound, hloop]
      rfl
    · simp only [Chk.apply, hloop]
  | duplicate cols =>
    simp only [Chk.satisfies, List.all_eq_true] at hsat
    have hloop := colLoop_const
      (fun col c acc => if hasDup c.cells then acc ++ [col] else acc) cols t
      (by
        intro col hcol
        obtain ⟨cl, hfind, hp⟩ := (columnOk_eq_true t col _).mp (hsat col hcol)
        rw [Bool.not_eq_true'] at hp
        refine ⟨cl, hfind, fun s' => ?_⟩
        show (if hasDup cl.cells = true then s' ++ [col] else s') = s'
        rw [if_neg]
        rw [hp]
        exact Bool.false_ne_true) []
    refine ⟨?_, rfl, fun _ => rfl⟩
    simp only [Chk.apply, raiseFound, hloop]
    rfl
  | dataValidity cols P found =>
    simp only [Chk.freshState] at hfresh
    rw [List.isEmpty_iff] at hfresh
    subst hfresh
    simp only [Chk.satisfies, List.all_eq_true] at hsat
    have hloop := colLoop_const (fun col c acc => dvCol P col acc c.cells) cols t
      (by
        intro col hcol
        obtain ⟨cl, hfind, hp⟩ := (columnOk_eq_true t col _).mp (hsat col hcol)
        rw [List.all_eq_true] at hp
        refine ⟨cl, hfind, fun s' => ?_⟩
        refine dvCol_no_issue P col cl.cells (fun v hv => ?_) s'
        have := hp v hv
        rwa [decide_eq_true_eq] at this) []
    refine ⟨?_, ?_, fun _ => rfl⟩
    · simp only [Chk.apply, raiseFound, hloop]
      rfl
    · simp only [Chk.apply, hloop]
  | futureDates cols now found =>
    simp only [Chk.freshState] at hfresh
    rw [List.isEmpty_iff] at hfresh
    subst hfresh
    simp only [Chk.satisfies, List.all_eq_true] at hsat
    have hloop := fdLoop_const now cols t
      (by
        intro col hcol
        obtain ⟨cl, hfind, hp⟩ := (columnOk_eq_true t col _).mp (hsat col hcol)
        rw [List.all_eq_true] at hp
        exact ⟨cl, hfind, hp⟩) []
    refine ⟨?_, ?_, fun _ => rfl⟩
    · simp only [Chk.apply, raiseFound, hloop]
      rfl
    · simp only [Chk.apply, hloop]
  | numWithinRange cols rs re found =>
    simp only [Chk.freshState] at hfresh
    rw [List.isEmpty_iff] at hfresh
    subst hfresh
    simp only [Chk.satisfies, Bool.and_eq_true, List.all_eq_true] at hsat
    obtain ⟨hle, hcols⟩ := hsat
    rw [decide_eq_true_eq] at hle
    have hloop := rangeLoop_const rs re cols t
      (by
        intro col hcol
        obtain ⟨cl, hfind, hp⟩ := (columnOk_eq_true t col _).mp (hcols col hcol)
        refine ⟨cl, hfind, ?_⟩
        cases hxs : intsSkipNan cl.cells with
        | none => rw [hxs] at hp; cases hp
        | some xs =>
          rw [hxs] at hp
          rw [List.all_eq_true] at hp
          refine ⟨xs, rfl, fun x hx => ?_⟩
          have := hp x hx
          simp only [Bool.and_eq_true, decide_eq_true_eq] at this
          exact this) []
    have hnotgt : ¬ rs > re := by omega
    refine ⟨?_, ?_, fun _ => ?_⟩
    · simp only [Chk.apply]
      rw [if_neg hnotgt]
      simp only [raiseFound, hloop]
      rfl
    · simp only [Chk.apply]
      rw [if_neg hnotgt]
      simp only [hloop]
    · simp only [Chk.apply]
      rw [if_neg hnotgt]
  | dataConsistency cols =>
    simp only [Chk.satisfies, Bool.or_eq_true] at hsat
    by_cases hlt : cols.length < 2
    · have happ : Chk.apply (.dataConsistency cols) t =
          ⟨t, .dataConsistency cols, .ok ()⟩ := by
        simp only [Chk.apply]
        rw [if_pos hlt]
      exact ⟨by rw [happ], by rw [happ], fun _ => by rw [happ]⟩
    · rcases hsat with hlt2 | hpairs
      · rw [decide_eq_true_eq] at hlt2
        exact absurd hlt2 hlt
      · rw [List.all_eq_true] at hpairs
        have hpres : ∀ col ∈ cols, (t.find? col).isSome := by
          intro col hcol
          have h2 := hpairs col hcol
          rw [List.all_eq_true] at h2
          have h3 := h2 col hcol
          cases hfc : t.find? col with
          | none => rw [hfc] at h3; cases h3
          | some cl => simp
        have hall : ∀ c1 ∈ cols, ∀ c2 ∈ cols, ∀ cl1 cl2,
            t.find? c1 = some cl1 → t.find? c2 = some cl2 → cl1.dtype = cl2.dtype := by
          intro c1 hc1 c2 hc2 cl1 cl2 hf1 hf2
          have h2 := hpairs c1 hc1
          rw [List.all_eq_true] at h2
          have h3 := h2 c2 hc2
          simp only [hf1, hf2, decide_eq_true_eq] at h3
          exact h3
        have hout := consistencyOut_ok_of_pairwise cols t hpres hall
        refine ⟨?_, ?_, fun _ => ?_⟩
        · simp only [Chk.apply]
          rw [if_neg hlt]
          exact hout
        · simp only [Chk.apply]
          rw [if_neg hlt]
        · simp only [Chk.apply]
          rw [if_neg hlt]
  | dataRelevancy cols expected =>
    simp only [Chk.satisfies, List.all_eq_true] at hsat
    have hscan := relevancyScan_nil expected t.cols
      (by
        intro p hp
        have := hsat p hp
        rwa [decide_eq_true_eq] at this)
    refine ⟨?_, rfl, fun _ => rfl⟩
    simp only [Chk.apply, hscan]
    rfl
  | isNaN cols =>
    simp only [Chk.satisfies, List.all_eq_true] at hsat
    have hloop := colLoop_const
      (fun col c acc => if Value.vNan ∈ c.cells then acc ++ [col] else acc) cols t
      (by
        intro col hcol
        obtain ⟨cl, hfind, hp⟩ := (columnOk_eq_true t col _).mp (hsat col hcol)
        simp only [Bool.not_eq_true', decide_eq_false_iff_not] at hp
        refine ⟨cl, hfind, fun s' => ?_⟩
        show (if Value.vNan ∈ cl.cells then s' ++ [col] else s') = s'
        rw [if_neg hp]) []
    refine ⟨?_, rfl, fun _ => rfl⟩
    simp only [Chk.apply, raiseFound, hloop]
    rfl

/-- C2 witness: a fresh range check on a table inside its bounds returns,
keeps its empty state and leaves the table untouched. -/
theorem fresh_satisfying_apply_succeeds_witness :
    (Chk.apply (.numWithinRange ["a"] 0 10 []) ⟨[("a", ⟨.int64, [.vInt 5]⟩)]⟩).out =
      .ok () ∧
    (Chk.apply (.numWithinRange ["a"] 0 10 []) ⟨[("a", ⟨.int64, [.vInt 5]⟩)]⟩).chk =
      .numWithinRange ["a"] 0 10 [] ∧
    (Chk.isTimeStamps (.numWithinRange ["a"] 0 10 []) = false →
      (Chk.apply (.numWithinRange ["a"] 0 10 []) ⟨[("a", ⟨.int64, [.vInt 5]⟩)]⟩).table =
        ⟨[("a", ⟨.int64, [.vInt 5]⟩)]⟩) :=
  fresh_satisfying_apply_succeeds (.numWithinRange ["a"] 0 10 [])
    ⟨[("a", ⟨.int64, [.vInt 5]⟩)]⟩ (by decide) (by decide)

theorem raiseFound_error {σ : Type} (mk : σ → Err) (isE : σ → Bool)
    (r : σ × Except Err Unit) (e : Err) (h : r.2 = .error e) :
    raiseFound mk isE r = .error e := by
  simp only [raiseFound, h]

theorem consistencyOut_error (r : List Dtype × Except Err Unit) (e : Err)
    (h : r.2 = .error e) : consistencyOut r = .error e := by
  simp only [consistencyOut, h]

theorem colLoop_error_of_absent {σ : Type} (f : String → Column → σ → σ) :
    ∀ (cols : List String) (t : Table) (s : σ) (col : String),
      col ∈ cols → t.find? col = none →
      ∃ e, (colLoop f cols t s).2 = .error e := by
  intro cols
  induction cols with
  | nil => intro t s col hcol; cases hcol
  | cons c0 rest ih =>
    intro t s col hcol hfind
    cases hf0 : t.find? c0 with
    | none => exact ⟨.keyError c0, by simp only [colLoop, hf0]⟩
    | some d =>
      have hcol2 : col ∈ rest := by
        rcases List.mem_cons.mp hcol with rfl | h2
        · rw [hfind] at hf0; cases hf0
        · exact h2
      obtain ⟨e, he⟩ := ih t (f c0 d s) col hcol2 hfind
      exact ⟨e, by simp only [colLoop, hf0]; exact he⟩

theorem colLoop_keyError_first {σ : Type} (f : String → Column → σ → σ) :
    ∀ (pre : List String) (col : String) (rest : List String) (t : Table) (s : σ),
      (∀ x ∈ pre, (t.find? x).isSome) → t.find? col = none →
      (colLoop f (pre ++ col :: rest) t s).2 = .error (.keyError col) := by
  intro pre
  induction pre with
  | nil =>
    intro col rest t s _ hfind
    simp only [List.nil_append, colLoop, hfind]
  | cons x xs ih =>
    intro col rest t s hpre hfind
    obtain ⟨d, hd⟩ := Option.isSome_iff_exists.mp (hpre x (List.mem_cons_self x xs))
    simp only [List.cons_append, colLoop, hd]
    exact ih col rest t (f x d s)
      (fun z hz => hpre z (List.mem_cons_of_mem x hz)) hfind

theorem rangeLoop_error_of_absent (rs re : Int) :
    ∀ (cols : List String) (t : Table) (found : List String) (col : String),
      col ∈ cols → t.find? col = none →
      ∃ e, (rangeLoop rs re cols t found).2 = .error e := by
  intro cols
  induction cols with
  | nil => intro t found col hcol; cases hcol
  | cons c0 rest ih =>
    intro t found col hcol hfind
    cases hf0 : t.find? c0 with
    | none => exact ⟨.keyError c0, by simp only [rangeLoop, hf0]⟩
    | some d =>
      have hcol2 : col ∈ rest := by
        rcases List.mem_cons.mp hcol with rfl | h2
        · rw [hfind] at hf0; cases hf0
        · exact h2
      cases hxs : intsSkipNan d.cells with
      | none => exact ⟨.typeError c0, by simp only [rangeLoop, hf0, hxs]⟩
      | some xs =>
        obtain ⟨e, he⟩ := ih t
          (if rangeFlag rs re xs then found ++ [c0] else found) col hcol2 hfind
        exact ⟨e, by simp only [rangeLoop, hf0, hxs]; exact he⟩

theorem fdLoop_error_of_absent (now : PdTimestamp) :
    ∀ (cols : List String) (t : Table) (found : List String) (col : String),
      col ∈ cols → t.find? col = none →
      ∃ e, (fdLoop now cols t found).2 = .error e := by
  intro cols
  induction cols with
  | nil => intro t found col hcol; cases hcol
  | cons c0 rest ih =>
    intro t found col hcol hfind
    cases hf0 : t.find? c0 with
    | none => exact ⟨.keyError c0, by simp only [fdLoop, hf0]⟩
    | some d =>
      have hcol2 : col ∈ rest := by
        rcases List.mem_cons.mp hcol with rfl | h2
        · rw [hfind] at hf0; cases hf0
        · exact h2
      cases hr : (fdCol now c0 d.cells found).2 with
      | error e => exact ⟨e, by simp only [fdLoop, hf0, hr]⟩
      | ok u =>
        obtain ⟨e, he⟩ := ih t (fdCol now c0 d.cells found).1 col hcol2 hfind
        exact ⟨e, by simp only [fdLoop, hf0, hr]; exact he⟩

theorem tsLoop_error_of_absent :
    ∀ (cols : List String) (t : Table) (col : String),
      col ∈ cols → t.find? col = none →
      ∃ e, (tsLoop cols t).2 = .error e := by
  intro cols
  induction cols with
  | nil => intro t col hcol; cases hcol
  | cons c0 rest ih =>
    intro t col hcol hfind
    cases hf0 : t.find? c0 with
    | none => exact ⟨.keyError c0, by simp only [tsLoop, hf0]⟩
    | some d =>
      have hcol2 : col ∈ rest := by
        rcases List.mem_cons.mp hcol with rfl | h2
        · rw [hfind] at hf0; cases hf0
        · exact h2
      cases hn : normalizeCells d.cells with
      | error e => exact ⟨e, by simp only [tsLoop, hf0, hn]⟩
      | ok ws =>
        have hfind2 : (t.set c0 ⟨.object, ws⟩).find? col = none := by
          have hne : col ≠ c0 := by
            intro hq
            rw [hq, hf0] at hfind
            cases hfind
          rw [find?_set_ne t c0 col _ hne]
          exact hfind
        obtain ⟨e, he⟩ := ih (t.set c0 ⟨.object, ws⟩) col hcol2 hfind2
        exact ⟨e, by simp only [tsLoop, hf0, hn]; exact he⟩

/-- C4 as amended: for every check variant that reads its target columns in
its configuration — i.e. every variant except the column-relevancy check,
which never reads them, and the type-consistency check with fewer than two
targets, which returns before touching the table — `apply` on a table
missing a target column raises at apply time (the range check with inverted
bounds raises ConfigurationError before any lookup); and for the variants
whose per-column processing cannot itself fail, the raised error is the
column-lookup KeyError (the ColumnNotFound kind) naming the first absent
target column.  No constructor inspects a table, so nothing is validated at
construction. -/
theorem absent_target_column_errors :
    (∀ (c : Chk) (t : Table) (col : String), c.accessesTargets = true →
      col ∈ c.columns → t.find? col = none → ∃ e, (c.apply t).out = .error e) ∧
    (∀ (c : Chk) (t : Table) (pre : List String) (col : String) (rest : List String),
      c.simpleColumnLoop = true → c.columns = pre ++ col :: rest →
      (∀ x ∈ pre, (t.find? x).isSome) → t.find? col = none →
      (c.apply t).out = .error (.keyError col)) := by
  constructor
  · intro c t col hacc hcol hfind
    cases c with
    | timeStamps cols =>
      obtain ⟨e, he⟩ := tsLoop_error_of_absent cols t col hcol hfind
      exact ⟨e, he⟩
    | blank cols =>
      obtain ⟨e, he⟩ := colLoop_error_of_absent _ cols t [] col hcol hfind
      exact ⟨e, raiseFound_error _ _ _ e he⟩
    | gibberish cols G found =>
      obtain ⟨e, he⟩ := colLoop_error_of_absent _ cols t found col hcol hfind
      exact ⟨e, raiseFound_error _ _ _ e he⟩
    | duplicate cols =>
      obtain ⟨e, he⟩ := colLoop_error_of_absent _ cols t [] col hcol hfind
      exact ⟨e, raiseFound_error _ _ _ e he⟩
    | dataValidity cols P found =>
      obtain ⟨e, he⟩ := colLoop_error_of_absent _ cols t found col hcol hfind
      exact ⟨e, raiseFound_error _ _ _ e he⟩
    | futureDates cols now found =>
      obtain ⟨e, he⟩ := fdLoop_error_of_absent now cols t found col hcol hfind
      exact ⟨e, raiseFound_error _ _ _ e he⟩
    | numWithinRange cols rs re found =>
      by_cases hgt : rs > re
      · refine ⟨.configValueError rs re, ?_⟩
        simp only [Chk.apply]
        rw [if_pos hgt]
      · obtain ⟨e, he⟩ := rangeLoop_error_of_absent rs re cols t found col hcol hfind
        refine ⟨e, ?_⟩
        simp only [Chk.apply]
        rw [if_neg hgt]
        exact raiseFound_error _ _ _ e he
    | dataConsistency cols =>
      simp only [Chk.accessesTargets, decide_eq_true_eq] at hacc
      obtain ⟨e, he⟩ := colLoop_error_of_absent
        (fun _ c acc => if c.dtype ∈ acc then acc else acc ++ [c.dtype])
        cols t [] col hcol hfind
      refine ⟨e, ?_⟩
      simp only [Chk.apply]
      rw [if_neg (by omega)]
      exact consistencyOut_error _ e he
    | dataRelevancy cols expected => cases hacc
    | isNaN cols =>
      obtain ⟨e, he⟩ := colLoop_error_of_absent _ cols t [] col hcol hfind
      exact ⟨e, raiseFound_error _ _ _ e he⟩
  · intro c t pre col rest hsimple hcols hpre hfind
    cases c with
    | timeStamps cols => cases hsimple
    | futureDates cols now found => cases hsimple
    | numWithinRange cols rs re found => cases hsimple
    | dataRelevancy cols expected => cases hsimple
    | blank cols =>
      simp only [Chk.columns] at hcols
      subst hcols
      exact raiseFound_error _ _ _ _ (colLoop_keyError_first _ pre col rest t [] hpre hfind)
    | gibberish cols G found =>
      simp only [Chk.columns] at hcols
      subst hcols
      exact raiseFound_error _ _ _ _ (colLoop_keyError_first _ pre col rest t found hpre hfind)
    | duplicate cols =>
      simp only [Chk.columns] at hcols
      subst hcols
      exact raiseFound_error _ _ _ _ (colLoop_keyError_first _ pre col rest t [] hpre hfind)
    | dataValidity cols P found =>
      simp only [Chk.columns] at hcols
      subst hcols
      exact raiseFound_error _ _ _ _ (colLoop_keyError_first _ pre col rest t found hpre hfind)
    | isNaN cols =>
      simp only [Chk.columns] at hcols
      subst hcols
      exact raiseFound_error _ _ _ _ (colLoop_keyError_first _ pre col rest t [] hpre hfind)
    | dataConsistency cols =>
      simp only [Chk.simpleColumnLoop, decide_eq_true_eq] at hsimple
      simp only [Chk.columns] at hcols
      subst hcols
      have hout : (Chk.apply (.dataConsistency (pre ++ col :: rest)) t).out =
          consistencyOut (dtypeCollect (pre ++ col :: rest) t []) := by
        simp only [Chk.apply]
        rw [if_neg (by omega)]
      rw [hout]
      exact consistencyOut_error _ _ (colLoop_keyError_first _ pre col rest t [] hpre hfind)

/-- C4 witness: a timestamp check on a missing column raises at apply time;
a duplicate check whose second target is absent raises KeyError naming it. -/
theorem absent_target_column_errors_witness :
    (∃ e, (Chk.apply (.timeStamps ["x"]) ⟨[]⟩).out = .error e) ∧
    (Chk.apply (.duplicate ["a", "x"]) ⟨[("a", ⟨.int64, [.vInt 1]⟩)]⟩).out =
      .error (.keyError "x") :=
  ⟨absent_target_column_errors.1 (.timeStamps ["x"]) ⟨[]⟩ "x" (by decide)
      (by decide) (by decide),
   absent_target_column_errors.2 (.duplicate ["a", "x"])
      ⟨[("a", ⟨.int64, [.vInt 1]⟩)]⟩ ["a"] "x" [] (by decide) (by decide)
      (by decide) (by decide)⟩
